import Mathlib

/-!
Verification of the text-position mapping and highlight-overlay engine of the
editable.ts repository, against its natural-language specification.

The development shallowly embeds the relevant source files:

* src/node-iterator.ts            (NodeIterator: getNext, replaceCurrent)
* src/highlight-text (part_011)   (extractText, getText, highlightMatches,
                                   wrapMatch, wrapPortion)
* src/highlight-support.ts        (removeHighlight)
* src/content.ts                  (unwrap)
* src/plugins/highlighting/match-collection.ts
                                  (MatchCollection.addMatches, mergeMatches,
                                   pickNext)
* src/util/binary_search.ts       (binaryCursorSearch, moveLeft, moveRight,
                                   createRangeAtCharacterOffset)
* src/util/element.ts             (textNodesUnder, getTextNodeAndRelativeOffset,
                                   getTotalCharCount)
* src/range-save-restore.ts       (restore, setRangeBoundary)
* src/util/dom (part_009)         (normalizeBoundaries)

DOM trees are modelled as the inductive type DNode: a node is either a text
node carrying its character data, or an element node carrying a tag name, an
attribute list and a list of children.  Characters are modelled as Lean Char
(the claims under study never depend on UTF-16 surrogate splitting).
Machine integers of the source are JavaScript doubles holding small integers;
they are modelled as Nat, and as Int where the source compares against -1.
-/

/-! ## Document tree model -/

/-- Attribute map of an element, in document order.  DOM attributes are
unique per name; getAttribute returns the first (only) binding. -/
abbrev Attrs := List (String × String)

/-- Embedding of Element.getAttribute: the value bound to a name, if any. -/
def getAttr : Attrs → String → Option String
  | [], _ => none
  | (k2, v) :: rest, k => if k2 = k then some v else getAttr rest k

/-- Embedding of Element.setAttribute: replace the binding for a name, or
append a new one. -/
def setAttr : Attrs → String → String → Attrs
  | [], k, v => [(k, v)]
  | (k2, v2) :: rest, k, v =>
    if k2 = k then (k, v) :: rest else (k2, v2) :: setAttr rest k v

/-- Document node: a text node with its character data, or an element with a
tag name (uppercase, as DOM nodeName reports for HTML), attributes and
ordered children. -/
inductive DNode where
  | text (data : List Char)
  | elem (tag : String) (attrs : Attrs) (children : List DNode)

/-- Test for the data-editable="remove" marker that makes NodeIterator skip
the children of an element (node-iterator.ts line 53). -/
def removeMarked (a : Attrs) : Bool :=
  getAttr a "data-editable" = some "remove"

/-! ## Text linearization

Embedding of getText / extractText of part_011 (highlight-text).  The source
iterates with a NodeIterator: every node of the subtree is visited in
depth-first pre-order, except that children of elements marked
data-editable="remove" are skipped.  For each visited non-empty text node the
character data is appended; for each visited BR element one newline is
appended when convertBRs is set.  The recursion below produces exactly the
contributions of that visit sequence: a visited element contributes its own
BR newline first (the element itself is visited even when remove-marked) and
then, unless it is remove-marked, the contributions of its children. -/

/-- Text contributions of a list of sibling subtrees, in visit order. -/
def getTextL : List DNode → Bool → List Char
  | [], _ => []
  | .text s :: ns, convertBRs => s ++ getTextL ns convertBRs
  | .elem t a cs :: ns, convertBRs =>
    (if t = "BR" ∧ convertBRs then ['\n'] else []) ++
    (if removeMarked a then [] else getTextL cs convertBRs) ++
    getTextL ns convertBRs

/-- Embedding of extractText(element, convertBRs) of part_011: the host node
itself is the first node the iterator returns, so the walk is the walk of the
one-element list holding the host. -/
def extractText (host : DNode) (convertBRs : Bool) : List Char :=
  getTextL [host] convertBRs

/-! ## Match collection

Embedding of src/plugins/highlighting/match-collection.ts.  Only startIndex
and endIndex participate in the merge; the remaining Match fields (matched
text, marker node, id) are irrelevant to the collection and omitted here. -/

/-- Half-open character span of a search match. -/
structure Match where
  startIndex : Nat
  endIndex : Nat
deriving DecidableEq, Repr

/-- Embedding of pickNext (match-collection.ts lines 54-75).  The source
keeps indices i1/i2 into the two arrays; the unconsumed suffixes are
represented directly.  Returns the picked match and the two remaining
suffixes, or none when both are exhausted.  Note the tie behaviour: the
second list wins unless the first list item starts strictly earlier. -/
def pickNext : List Match → List Match → Option (Match × List Match × List Match)
  | m1 :: r1, m2 :: r2 =>
    if m1.startIndex < m2.startIndex then some (m1, r1, m2 :: r2)
    else some (m2, m1 :: r1, r2)
  | m1 :: r1, [] => some (m1, r1, [])
  | [], m2 :: r2 => some (m2, [], r2)
  | [], [] => none

theorem pickNext_size {l1 l2 : List Match} {n : Match} {r1 r2 : List Match}
    (h : pickNext l1 l2 = some (n, r1, r2)) :
    r1.length + r2.length < l1.length + l2.length := by
  cases l1 with
  | nil =>
    cases l2 with
    | nil => simp [pickNext] at h
    | cons m2 t2 =>
      simp only [pickNext, Option.some.injEq, Prod.mk.injEq] at h
      obtain ⟨-, h1, h2⟩ := h
      subst h1; subst h2; simp
  | cons m1 t1 =>
    cases l2 with
    | nil =>
      simp only [pickNext, Option.some.injEq, Prod.mk.injEq] at h
      obtain ⟨-, h1, h2⟩ := h
      subst h1; subst h2; simp
    | cons m2 t2 =>
      simp only [pickNext] at h
      split at h <;>
        (simp only [Option.some.injEq, Prod.mk.injEq] at h;
         obtain ⟨-, h1, h2⟩ := h; subst h1; subst h2;
         simp only [List.length_cons]; omega)

/-- Embedding of the while loop of mergeMatches (match-collection.ts lines
34-42), with the running lastEndIndex as an Int (it starts at -1).  A picked
match whose startIndex is at least lastEndIndex is appended; otherwise it is
dropped, and in both cases lastEndIndex becomes the endIndex of the picked
match (the source assigns it unconditionally in both branches). -/
def mergeRun (l1 l2 : List Match) (lastEndIndex : Int) : List Match :=
  match h : pickNext l1 l2 with
  | none => []
  | some (next, r1, r2) =>
    if (next.startIndex : Int) ≥ lastEndIndex then
      next :: mergeRun r1 r2 (next.endIndex : Int)
    else
      mergeRun r1 r2 (next.endIndex : Int)
termination_by l1.length + l2.length
decreasing_by
  all_goals exact pickNext_size h

/-- Embedding of mergeMatches (match-collection.ts lines 20-45). -/
def mergeMatches (matches1 matches2 : List Match) : List Match :=
  mergeRun matches1 matches2 (-1)

/-- State of a MatchCollection: its stored matches.  The source field is
named matches, which is a reserved word in Lean and is rendered here as
stored. -/
structure MatchCollection where
  stored : List Match
deriving DecidableEq, Repr

/-- Embedding of new MatchCollection(). -/
def MatchCollection.empty : MatchCollection := ⟨[]⟩

/-- Embedding of MatchCollection.addMatches (match-collection.ts lines
10-13): an empty batch is ignored, otherwise the stored list is replaced by
the merge with the batch. -/
def MatchCollection.addMatches (c : MatchCollection) (ms : List Match) :
    MatchCollection :=
  if ms.isEmpty then c else ⟨mergeMatches c.stored ms⟩

/-- Result of a sequence of addMatches calls starting from a fresh
collection. -/
def applyBatches (bs : List (List Match)) : MatchCollection :=
  bs.foldl MatchCollection.addMatches MatchCollection.empty

/-- Ordering on matches used by the spec: ascending startIndex. -/
def startLE (a b : Match) : Prop := a.startIndex ≤ b.startIndex

instance : DecidableRel startLE := fun a b => by
  unfold startLE; infer_instance

/-- Non-overlap of two consecutive matches as the spec states it. -/
def noOverlap (a b : Match) : Prop := a.endIndex ≤ b.startIndex

instance : DecidableRel noOverlap := fun a b => by
  unfold noOverlap; infer_instance

/-! ## Reference decomposition of the merge

The loop of mergeMatches factors into the sequence of picked matches
(pickSeq) and the append-or-drop filter over that sequence (filterRun).
This decomposition is proved equal to mergeRun below and is the basis for
the statements about the merge behaviour. -/

/-- Sequence of matches picked by repeated pickNext calls, in pick order. -/
def pickSeq (l1 l2 : List Match) : List Match :=
  match h : pickNext l1 l2 with
  | none => []
  | some (next, r1, r2) => next :: pickSeq r1 r2
termination_by l1.length + l2.length
decreasing_by
  exact pickNext_size h

/-- Append-or-drop filter of the merge loop: a match is appended exactly
when its startIndex is at least the running last-end; in either case the
running last-end becomes the endIndex of the processed match. -/
def filterRun : List Match → Int → List Match
  | [], _ => []
  | m :: r, lastEndIndex =>
    if (m.startIndex : Int) ≥ lastEndIndex then
      m :: filterRun r (m.endIndex : Int)
    else
      filterRun r (m.endIndex : Int)

theorem mergeRun_eq_filterRun (l1 l2 : List Match) (e : Int) :
    mergeRun l1 l2 e = filterRun (pickSeq l1 l2) e := by
  induction l1, l2, e using mergeRun.induct with
  | case1 l1 l2 e h =>
    rw [mergeRun, pickSeq]
    split
    · rfl
    · next heq => rw [h] at heq; exact absurd heq (by simp)
  | case2 l1 l2 e next r1 r2 h hge ih =>
    rw [mergeRun, pickSeq]
    split
    · next heq => rw [h] at heq; exact absurd heq (by simp)
    · next n2 r12 r22 heq =>
      rw [h] at heq
      obtain ⟨h1, h2, h3⟩ : n2 = next ∧ r12 = r1 ∧ r22 = r2 := by
        simpa using heq.symm
      subst h1; subst h2; subst h3
      rw [filterRun, ih]
  | case3 l1 l2 e next r1 r2 h hge ih =>
    rw [mergeRun, pickSeq]
    split
    · next heq => rw [h] at heq; exact absurd heq (by simp)
    · next n2 r12 r22 heq =>
      rw [h] at heq
      obtain ⟨h1, h2, h3⟩ : n2 = next ∧ r12 = r1 ∧ r22 = r2 := by
        simpa using heq.symm
      subst h1; subst h2; subst h3
      rw [filterRun, ih]

theorem pickSeq_nil_nil : pickSeq [] [] = [] := by
  rw [pickSeq]
  split
  · rfl
  · next heq => simp [pickNext] at heq

theorem pickSeq_cons_nil (m : Match) (r : List Match) :
    pickSeq (m :: r) [] = m :: pickSeq r [] := by
  rw [pickSeq]
  split
  · next heq => simp [pickNext] at heq
  · next n r1x r2x heq =>
    simp only [pickNext, Option.some.injEq, Prod.mk.injEq] at heq
    obtain ⟨h1, h2, h3⟩ := heq
    rw [h1, h2, h3]

theorem pickSeq_nil_cons (m : Match) (r : List Match) :
    pickSeq [] (m :: r) = m :: pickSeq [] r := by
  rw [pickSeq]
  split
  · next heq => simp [pickNext] at heq
  · next n r1x r2x heq =>
    simp only [pickNext, Option.some.injEq, Prod.mk.injEq] at heq
    obtain ⟨h1, h2, h3⟩ := heq
    rw [h1, h2, h3]

theorem pickSeq_cons_cons_lt {m1 m2 : Match} (r1 r2 : List Match)
    (h : m1.startIndex < m2.startIndex) :
    pickSeq (m1 :: r1) (m2 :: r2) = m1 :: pickSeq r1 (m2 :: r2) := by
  rw [pickSeq]
  split
  · next heq => rw [pickNext] at heq; split_ifs at heq
  · next n r1x r2x heq =>
    simp only [pickNext, if_pos h, Option.some.injEq, Prod.mk.injEq] at heq
    obtain ⟨h1, h2, h3⟩ := heq
    rw [h1, h2, h3]

theorem pickSeq_cons_cons_ge {m1 m2 : Match} (r1 r2 : List Match)
    (h : ¬ m1.startIndex < m2.startIndex) :
    pickSeq (m1 :: r1) (m2 :: r2) = m2 :: pickSeq (m1 :: r1) r2 := by
  rw [pickSeq]
  split
  · next heq => rw [pickNext] at heq; split_ifs at heq
  · next n r1x r2x heq =>
    simp only [pickNext, if_neg h, Option.some.injEq, Prod.mk.injEq] at heq
    obtain ⟨h1, h2, h3⟩ := heq
    rw [h1, h2, h3]

theorem pickSeq_mem {x : Match} : ∀ {l1 l2 : List Match},
    x ∈ pickSeq l1 l2 → x ∈ l1 ∨ x ∈ l2 := by
  intro l1 l2
  induction l1, l2 using pickSeq.induct with
  | case1 l1 l2 h =>
    intro hx
    rw [pickSeq] at hx
    split at hx
    · simp at hx
    · next heq => rw [h] at heq; exact absurd heq (by simp)
  | case2 l1 l2 next r1 r2 h ih =>
    intro hx
    rw [pickSeq] at hx
    split at hx
    · next heq => rw [h] at heq; exact absurd heq (by simp)
    · next n2 r12 r22 heq =>
      rw [h] at heq
      obtain ⟨h1, h2, h3⟩ : n2 = next ∧ r12 = r1 ∧ r22 = r2 := by
        simpa using heq.symm
      subst h1; subst h2; subst h3
      rcases List.mem_cons.mp hx with hx | hx
      · subst hx
        -- the picked match is the head of one of the two lists
        cases l1 with
        | nil =>
          cases l2 with
          | nil => simp [pickNext] at h
          | cons b t2 =>
            right
            simp only [pickNext, Option.some.injEq, Prod.mk.injEq] at h
            simp [h.1]
        | cons a t1 =>
          cases l2 with
          | nil =>
            left
            simp only [pickNext, Option.some.injEq, Prod.mk.injEq] at h
            simp [h.1]
          | cons b t2 =>
            simp only [pickNext] at h
            split at h <;>
              simp only [Option.some.injEq, Prod.mk.injEq] at h
            · left; simp [h.1]
            · right; simp [h.1]
      · rcases ih hx with hm | hm
        · -- member of the remaining suffix r1, hence of l1
          cases l1 with
          | nil =>
            cases l2 with
            | nil => simp [pickNext] at h
            | cons b t2 =>
              simp only [pickNext, Option.some.injEq, Prod.mk.injEq] at h
              obtain ⟨-, h1, -⟩ := h
              rw [← h1] at hm
              simp at hm
          | cons a t1 =>
            cases l2 with
            | nil =>
              simp only [pickNext, Option.some.injEq, Prod.mk.injEq] at h
              obtain ⟨-, h1, -⟩ := h
              left; rw [← h1] at hm; simp [hm]
            | cons b t2 =>
              simp only [pickNext] at h
              split at h <;>
                simp only [Option.some.injEq, Prod.mk.injEq] at h
              · obtain ⟨-, h1, -⟩ := h
                left; rw [← h1] at hm; simp [hm]
              · obtain ⟨-, h1, -⟩ := h
                left; rw [← h1] at hm; exact hm
        · cases l1 with
          | nil =>
            cases l2 with
            | nil => simp [pickNext] at h
            | cons b t2 =>
              simp only [pickNext, Option.some.injEq, Prod.mk.injEq] at h
              obtain ⟨-, -, h2⟩ := h
              right; rw [← h2] at hm; simp [hm]
          | cons a t1 =>
            cases l2 with
            | nil =>
              simp only [pickNext, Option.some.injEq, Prod.mk.injEq] at h
              obtain ⟨-, -, h2⟩ := h
              rw [← h2] at hm; simp at hm
            | cons b t2 =>
              simp only [pickNext] at h
              split at h <;>
                simp only [Option.some.injEq, Prod.mk.injEq] at h
              · obtain ⟨-, -, h2⟩ := h
                right; rw [← h2] at hm; exact hm
              · obtain ⟨-, -, h2⟩ := h
                right; rw [← h2] at hm; simp [hm]

theorem pickSeq_sorted : ∀ (k : Nat) (l1 l2 : List Match),
    l1.length + l2.length ≤ k →
    l1.Pairwise startLE → l2.Pairwise startLE →
    (pickSeq l1 l2).Pairwise startLE := by
  intro k
  induction k with
  | zero =>
    intro l1 l2 hk h1 h2
    have e1 : l1 = [] := by cases l1 <;> simp_all
    have e2 : l2 = [] := by cases l2 <;> simp_all
    subst e1; subst e2
    rw [pickSeq_nil_nil]
    exact List.Pairwise.nil
  | succ k ih =>
    intro l1 l2 hk h1 h2
    cases l1 with
    | nil =>
      cases l2 with
      | nil => rw [pickSeq_nil_nil]; exact List.Pairwise.nil
      | cons b t2 =>
        rw [pickSeq_nil_cons]
        rw [List.pairwise_cons] at h2 ⊢
        refine ⟨?_, ih [] t2 (by simp at hk ⊢; omega) List.Pairwise.nil h2.2⟩
        intro x hx
        rcases pickSeq_mem hx with hm | hm
        · simp at hm
        · exact h2.1 x hm
    | cons a t1 =>
      cases l2 with
      | nil =>
        rw [pickSeq_cons_nil]
        rw [List.pairwise_cons] at h1 ⊢
        refine ⟨?_, ih t1 [] (by simp at hk ⊢; omega) h1.2 List.Pairwise.nil⟩
        intro x hx
        rcases pickSeq_mem hx with hm | hm
        · exact h1.1 x hm
        · simp at hm
      | cons b t2 =>
        by_cases hlt : a.startIndex < b.startIndex
        · rw [pickSeq_cons_cons_lt _ _ hlt]
          rw [List.pairwise_cons] at h1 ⊢
          refine ⟨?_, ih t1 (b :: t2) (by simp at hk ⊢; omega) h1.2 h2⟩
          intro x hx
          rcases pickSeq_mem hx with hm | hm
          · exact h1.1 x hm
          · rcases List.mem_cons.mp hm with hm | hm
            · subst hm; exact Nat.le_of_lt hlt
            · rw [List.pairwise_cons] at h2
              exact Nat.le_trans (Nat.le_of_lt hlt) (h2.1 x hm)
        · rw [pickSeq_cons_cons_ge _ _ hlt]
          rw [List.pairwise_cons] at h2 ⊢
          refine ⟨?_, ih (a :: t1) t2 (by simp at hk ⊢; omega) h1 h2.2⟩
          intro x hx
          have hba : b.startIndex ≤ a.startIndex := Nat.le_of_not_lt hlt
          rcases pickSeq_mem hx with hm | hm
          · rcases List.mem_cons.mp hm with hm | hm
            · subst hm; exact hba
            · rw [List.pairwise_cons] at h1
              exact Nat.le_trans hba (h1.1 x hm)
          · exact h2.1 x hm

theorem filterRun_sublist : ∀ (r : List Match) (e : Int),
    (filterRun r e).Sublist r := by
  intro r
  induction r with
  | nil => intro e; rw [filterRun]
  | cons m t ih =>
    intro e
    rw [filterRun]
    split
    · exact List.Sublist.cons₂ m (ih _)
    · exact List.Sublist.cons m (ih _)

/-- Sortedness by startIndex is preserved by a single addMatches call with a
sorted batch. -/
theorem addMatches_sorted {c : MatchCollection} {ms : List Match}
    (hc : c.stored.Pairwise startLE) (hm : ms.Pairwise startLE) :
    (c.addMatches ms).stored.Pairwise startLE := by
  rw [MatchCollection.addMatches]
  split
  · exact hc
  · show (mergeMatches c.stored ms).Pairwise startLE
    rw [mergeMatches, mergeRun_eq_filterRun]
    exact List.Pairwise.sublist (filterRun_sublist _ _)
      (pickSeq_sorted (c.stored.length + ms.length) _ _ (Nat.le_refl _) hc hm)

/-! ## Claims C3, C4, C5: the match-collection merge -/

/-- Claim C3, counterexample.  Two addMatches calls, each with a batch sorted
ascending by startIndex ([the second batch is even non-overlapping within
itself]), leave the collection holding [(0,10), (5,20)], which is not
mutually non-overlapping: the second stored match starts at 5, before the end
10 of the first.  The drop of (2,3) lowered the running last-end from 10 to
3, letting (5,20) through. -/
theorem C3_counterexample :
    ((⟨0, 10⟩ : Match) :: [⟨2, 3⟩, ⟨5, 20⟩] : List Match).tail.Pairwise startLE ∧
    [(⟨0, 10⟩ : Match)].Pairwise startLE ∧
    (applyBatches [[⟨0, 10⟩], [⟨2, 3⟩, ⟨5, 20⟩]]).stored = [⟨0, 10⟩, ⟨5, 20⟩] ∧
    ¬ (applyBatches [[⟨0, 10⟩], [⟨2, 3⟩, ⟨5, 20⟩]]).stored.Pairwise noOverlap := by
  refine ⟨by decide, by decide, ?_, ?_⟩
  · simp [applyBatches, MatchCollection.addMatches, MatchCollection.empty,
      mergeMatches, mergeRun, pickNext]
  · intro hpw
    have : (applyBatches [[⟨0, 10⟩], [⟨2, 3⟩, ⟨5, 20⟩]]).stored
        = [⟨0, 10⟩, ⟨5, 20⟩] := by
      simp [applyBatches, MatchCollection.addMatches, MatchCollection.empty,
        mergeMatches, mergeRun, pickNext]
    rw [this] at hpw
    rw [List.pairwise_cons] at hpw
    have := hpw.1 ⟨5, 20⟩ (by simp)
    simp [noOverlap] at this

/-- Claim C3, amended: after any sequence of addMatches calls whose batches
are each sorted ascending by startIndex, the stored list is sorted ascending
by startIndex.  Mutual non-overlap of consecutive stored matches does not
hold in general (see the counterexample): a dropped match overwrites the
running last-end even when that lowers it, so a later match overlapping an
already stored one can be appended. -/
theorem C3_amended_sorted (bs : List (List Match))
    (hb : ∀ b ∈ bs, b.Pairwise startLE) :
    (applyBatches bs).stored.Pairwise startLE := by
  rw [applyBatches]
  have h0 : (MatchCollection.empty).stored.Pairwise startLE :=
    List.Pairwise.nil
  revert h0
  generalize MatchCollection.empty = c
  induction bs generalizing c with
  | nil => intro h0; simpa using h0
  | cons b bs ih =>
    intro h0
    rw [List.foldl_cons]
    exact ih (fun x hx => hb x (List.mem_cons_of_mem _ hx)) _
      (addMatches_sorted h0 (hb b (List.mem_cons_self _ _)))

/-- Witness for C3_amended_sorted at the batches of the counterexample. -/
theorem C3_amended_sorted_witness :
    (applyBatches [[⟨0, 10⟩], [⟨2, 3⟩, ⟨5, 20⟩]]).stored.Pairwise startLE :=
  C3_amended_sorted [[⟨0, 10⟩], [⟨2, 3⟩, ⟨5, 20⟩]] (by decide)

/-- Claim C4, counterexample.  Merging the stored list [(0,10)] with the
sorted batch [(2,3),(5,20)] appends (5,20) to the output right after (0,10)
even though its startIndex 5 is smaller than the endIndex 10 of the last
emitted match, because the dropped match (2,3) moved the running last-end
down to 3; the claim says the last-end is advanced on a drop only if the
dropped endIndex is greater, and that a match is appended exactly when its
startIndex is at least the last emitted endIndex. -/
theorem C4_counterexample :
    mergeMatches [⟨0, 10⟩] [⟨2, 3⟩, ⟨5, 20⟩] = [⟨0, 10⟩, ⟨5, 20⟩] ∧
    ¬ noOverlap ⟨0, 10⟩ ⟨5, 20⟩ := by
  constructor
  · simp [mergeMatches, mergeRun, pickNext]
  · decide

/-- Claim C4, amended.  A picked match is appended exactly when its
startIndex is at least the running last-end value, and the running last-end
becomes the endIndex of every picked match, dropped or appended, even when
that decreases it (filterRun is that rule, folded over the picked sequence
starting from -1).  The two concrete examples of the claim do hold. -/
theorem C4_amended :
    (∀ l1 l2 : List Match,
        mergeMatches l1 l2 = filterRun (pickSeq l1 l2) (-1)) ∧
    (applyBatches [[⟨0, 1⟩], [⟨1, 2⟩]]).stored = [⟨0, 1⟩, ⟨1, 2⟩] ∧
    (applyBatches [[⟨0, 2⟩], [⟨1, 2⟩]]).stored = [⟨0, 2⟩] := by
  refine ⟨fun l1 l2 => mergeRun_eq_filterRun l1 l2 (-1), ?_, ?_⟩
  · simp [applyBatches, MatchCollection.addMatches, MatchCollection.empty,
      mergeMatches, mergeRun, pickNext]
  · simp [applyBatches, MatchCollection.addMatches, MatchCollection.empty,
      mergeMatches, mergeRun, pickNext]

/-- Claim C5, counterexample.  With existing list [(0,1)] and new batch
[(0,2)], the two next unconsumed items have equal startIndex 0, and pickNext
emits the new-batch item (0,2) first, not the existing-list item; as a
consequence the whole merge keeps the new-batch item and drops the existing
one. -/
theorem C5_counterexample :
    pickNext [⟨0, 1⟩] [⟨0, 2⟩] = some (⟨0, 2⟩, [⟨0, 1⟩], []) ∧
    mergeMatches [⟨0, 1⟩] [⟨0, 2⟩] = [⟨0, 2⟩] ∧
    (⟨0, 2⟩ : Match) ≠ (⟨0, 1⟩ : Match) := by
  refine ⟨by decide, ?_, by decide⟩
  simp [mergeMatches, mergeRun, pickNext]

/-- Claim C5, amended: whenever the next unconsumed existing-list item and
the next unconsumed new-batch item have equal startIndex, the new-batch item
is emitted first (the source picks the first list only on a strict
startIndex inequality). -/
theorem C5_amended (m1 m2 : Match) (r1 r2 : List Match)
    (h : m1.startIndex = m2.startIndex) :
    pickNext (m1 :: r1) (m2 :: r2) = some (m2, m1 :: r1, r2) := by
  rw [pickNext]
  rw [if_neg (by omega)]

/-- Witness for C5_amended at the inputs of the counterexample. -/
theorem C5_amended_witness :
    pickNext [(⟨0, 1⟩ : Match)] [⟨0, 2⟩] = some (⟨0, 2⟩, [⟨0, 1⟩], []) :=
  C5_amended ⟨0, 1⟩ ⟨0, 2⟩ [] [] rfl

/-! ## Geometric cursor binary search

Embedding of src/util/binary_search.ts together with the helpers it uses
from src/util/element.ts.  The rendering engine is modelled as an oracle
mapping a character offset to the bounding rectangle of the collapsed range
materialized at that offset (the source calls
range.getBoundingClientRect()); the host rectangle is a further input.
Pixel coordinates are modelled as Int: the claims under study only depend on
equality, order and absolute difference of coordinates. -/

/-- Bounding rectangle fields read by the search. -/
structure DRect where
  left : Int
  top : Int
  bottom : Int
deriving DecidableEq, Repr

/-- Embedding of textNodesUnder (element.ts lines 3-6): the data of every
non-empty text node of the subtree, in NodeIterator order (children of
remove-marked elements are skipped). -/
def textNodesUnderL : List DNode → List (List Char)
  | [] => []
  | .text s :: ns => (if s.isEmpty then [] else [s]) ++ textNodesUnderL ns
  | .elem _ a cs :: ns =>
    (if removeMarked a then [] else textNodesUnderL cs) ++ textNodesUnderL ns

/-- Text nodes under a host node, the host itself included in the walk. -/
def textNodesUnder (host : DNode) : List (List Char) :=
  textNodesUnderL [host]

/-- Embedding of getTotalCharCount (element.ts lines 30-34). -/
def getTotalCharCount (host : DNode) : Nat :=
  ((textNodesUnder host).map List.length).sum

/-- Embedding of getTextNodeAndRelativeOffset (element.ts lines 10-28); cum
is the cumulativeOffset accumulator of the source loop, starting at 0.
Returns the text node containing the absolute offset and the offset relative
to it, or none when the loop falls through (the source then returns
undefined and its caller throws). -/
def getTextNodeAndRelativeOffset : List (List Char) → Nat → Nat → Option (List Char × Nat)
  | [], _, _ => none
  | t :: ts, absOffset, cum =>
    if absOffset ≤ cum + t.length then some (t, absOffset - cum)
    else getTextNodeAndRelativeOffset ts absOffset (cum + t.length)

/-- Search interval state of binaryCursorSearch (binary_search.ts lines
4-8). -/
structure BinarySearchData where
  currentOffset : Nat
  leftLimit : Nat
  rightLimit : Nat
deriving DecidableEq, Repr

/-- Embedding of moveLeft (binary_search.ts lines 145-148). -/
def moveLeft (d : BinarySearchData) : BinarySearchData :=
  ⟨(d.currentOffset + d.leftLimit) / 2, d.leftLimit, d.currentOffset⟩

/-- Embedding of moveRight (binary_search.ts lines 151-154); Math.ceil on a
half is ceiling division. -/
def moveRight (d : BinarySearchData) : BinarySearchData :=
  ⟨(d.currentOffset + d.rightLimit + 1) / 2, d.currentOffset, d.rightLimit⟩

/-- Embedding of the while loop of binaryCursorSearch (binary_search.ts
lines 72-112), recursing on the safety counter, which the source decrements
once per iteration starting from 20.  The offset and distance arguments are
the mutable offset and distance variables (the last probed offset and its
distance).  The returned list collects the offsets probed by the loop, one
per executed iteration (an instrumentation; it does not influence the
result).  The result is none when createRangeAtCharacterOffset finds no text
node and throws. -/
def searchLoop (oracle : Nat → DRect) (tns : List (List Char))
    (hostCoords : DRect) (requiredOnFirstLine requiredOnLastLine : Bool)
    (positionX : Int) :
    Nat → BinarySearchData → Nat → Nat →
    List Nat × Option (BinarySearchData × Nat × Nat)
  | 0, data, offset, distance => ([], some (data, offset, distance))
  | safety + 1, data, offset, distance =>
    if data.leftLimit < data.rightLimit then
      match getTextNodeAndRelativeOffset tns data.currentOffset 0 with
      | none => ([data.currentOffset], none)
      | some _ =>
        let coords := oracle data.currentOffset
        let off := data.currentOffset
        let dist := (coords.left - positionX).natAbs
        let next :=
          if requiredOnFirstLine ∧ hostCoords.top ≠ coords.top then
            moveLeft data
          else if requiredOnLastLine ∧ hostCoords.bottom ≠ coords.bottom then
            moveRight data
          else if positionX < coords.left then
            moveLeft data
          else
            moveRight data
        let r := searchLoop oracle tns hostCoords requiredOnFirstLine
          requiredOnLastLine positionX safety next off dist
        (off :: r.1, r.2)
    else ([], some (data, offset, distance))

/-- Result record of binaryCursorSearch (binary_search.ts lines 10-14). -/
structure BinaryCursorSearchResult where
  wasFound : Bool
  distance : Option Nat
  offset : Option Nat
deriving DecidableEq, Repr

/-- Embedding of binaryCursorSearch (binary_search.ts lines 27-142).  The
instrumented first component lists the offsets probed by the loop; the
second component is the returned record, or none when a probe throws.  On an
empty host the search exits early with wasFound false; otherwise the loop
runs from the midpoint, and afterwards the final currentOffset is probed
once more and replaces the last loop probe exactly when strictly closer to
the target. -/
def binaryCursorSearch (oracle : Nat → DRect) (hostCoords : DRect)
    (host : DNode) (requiredOnFirstLine requiredOnLastLine : Bool)
    (positionX : Int) :
    List Nat × Option BinaryCursorSearchResult :=
  let totalCharCount := getTotalCharCount host
  let textNodes := textNodesUnder host
  if totalCharCount = 0 then ([], some ⟨false, none, none⟩)
  else
    let data0 : BinarySearchData := ⟨totalCharCount / 2, 0, totalCharCount⟩
    let r := searchLoop oracle textNodes hostCoords requiredOnFirstLine
      requiredOnLastLine positionX 20 data0 data0.currentOffset 0
    match r.2 with
    | none => (r.1, none)
    | some (data, offset, distance) =>
      match getTextNodeAndRelativeOffset textNodes data.currentOffset 0 with
      | none => (r.1, none)
      | some _ =>
        let finalDistance := ((oracle data.currentOffset).left - positionX).natAbs
        if finalDistance < distance then
          (r.1, some ⟨true, some finalDistance, some data.currentOffset⟩)
        else
          (r.1, some ⟨true, some distance, some offset⟩)

/-! ## Claims C6, C7, C8: behaviour of the geometric search -/

theorem getTextNodeAndRelativeOffset_isSome :
    ∀ (ts : List (List Char)) (off cum : Nat), ts ≠ [] →
      off ≤ cum + (ts.map List.length).sum →
      (getTextNodeAndRelativeOffset ts off cum).isSome := by
  intro ts
  induction ts with
  | nil => intro off cum h; exact absurd rfl h
  | cons t rest ih =>
    intro off cum _ hle
    rw [getTextNodeAndRelativeOffset]
    split
    · rfl
    · next hgt =>
      have hrest : rest ≠ [] := by
        intro he
        subst he
        simp at hle
        omega
      exact ih off (cum + t.length) hrest (by simp at hle ⊢; omega)

/-- Search interval well-formedness relative to the total character count. -/
def searchInv (n : Nat) (d : BinarySearchData) : Prop :=
  d.leftLimit ≤ d.currentOffset ∧ d.currentOffset ≤ d.rightLimit ∧
    d.rightLimit ≤ n

theorem moveLeft_inv {n : Nat} {d : BinarySearchData} (h : searchInv n d) :
    searchInv n (moveLeft d) := by
  obtain ⟨h1, h2, h3⟩ := h
  refine ⟨?_, ?_, ?_⟩ <;> simp [moveLeft] <;> omega

theorem moveRight_inv {n : Nat} {d : BinarySearchData} (h : searchInv n d) :
    searchInv n (moveRight d) := by
  obtain ⟨h1, h2, h3⟩ := h
  refine ⟨?_, ?_, ?_⟩ <;> simp [moveRight] <;> omega

theorem searchLoop_ok (oracle : Nat → DRect) (tns : List (List Char))
    (hostCoords : DRect) (rf rl : Bool) (X : Int) (n : Nat)
    (htns : tns ≠ []) (hsum : (tns.map List.length).sum = n) :
    ∀ (safety : Nat) (d : BinarySearchData) (off dist : Nat),
      searchInv n d → off ≤ n →
      ∃ ps d2 off2 dist2,
        searchLoop oracle tns hostCoords rf rl X safety d off dist
          = (ps, some (d2, off2, dist2)) ∧ searchInv n d2 ∧ off2 ≤ n := by
  intro safety
  induction safety with
  | zero =>
    intro d off dist hinv hoff
    exact ⟨[], d, off, dist, rfl, hinv, hoff⟩
  | succ safety ih =>
    intro d off dist hinv hoff
    rw [searchLoop]
    split
    · have hprobe : (getTextNodeAndRelativeOffset tns d.currentOffset 0).isSome := by
        apply getTextNodeAndRelativeOffset_isSome tns _ 0 htns
        rw [hsum]
        obtain ⟨-, h2, h3⟩ := hinv
        omega
      obtain ⟨v, hv⟩ := Option.isSome_iff_exists.mp hprobe
      rw [hv]
      have hcur : d.currentOffset ≤ n := by
        obtain ⟨-, h2, h3⟩ := hinv
        omega
      set next :=
        if rf = true ∧ hostCoords.top ≠ (oracle d.currentOffset).top then
          moveLeft d
        else if rl = true ∧ hostCoords.bottom ≠ (oracle d.currentOffset).bottom then
          moveRight d
        else if X < (oracle d.currentOffset).left then
          moveLeft d
        else
          moveRight d with hnext
      have hninv : searchInv n next := by
        rw [hnext]
        split
        · exact moveLeft_inv hinv
        · split
          · exact moveRight_inv hinv
          · split
            · exact moveLeft_inv hinv
            · exact moveRight_inv hinv
      obtain ⟨ps, d2, off2, dist2, heq, hinv2, hoff2⟩ :=
        ih next d.currentOffset (((oracle d.currentOffset).left - X).natAbs)
          hninv hcur
      refine ⟨d.currentOffset :: ps, d2, off2, dist2, ?_, hinv2, hoff2⟩
      simp only [heq]
    · exact ⟨[], d, off, dist, rfl, hinv, hoff⟩

theorem searchLoop_probes_le (oracle : Nat → DRect) (tns : List (List Char))
    (hostCoords : DRect) (rf rl : Bool) (X : Int) :
    ∀ (safety : Nat) (d : BinarySearchData) (off dist : Nat),
      (searchLoop oracle tns hostCoords rf rl X safety d off dist).1.length
        ≤ safety := by
  intro safety
  induction safety with
  | zero => intro d off dist; simp [searchLoop]
  | succ safety ih =>
    intro d off dist
    rw [searchLoop]
    split
    · split
      · simp
      · simpa using Nat.succ_le_succ (ih _ _ _)
    · simp

/-- Claim C6: binaryCursorSearch returns the not-found record exactly when
the host has zero characters; for a host with at least one character, and
any rendering oracle, host rectangle, line flags and target coordinate, it
returns a found record whose offset lies in the closed interval from 0 to
the total character count (and no probe ever throws). -/
theorem C6_found_iff_nonempty (oracle : Nat → DRect) (hostCoords : DRect)
    (host : DNode) (rf rl : Bool) (X : Int) :
    ((binaryCursorSearch oracle hostCoords host rf rl X).2
        = some ⟨false, none, none⟩ ↔ getTotalCharCount host = 0) ∧
    (0 < getTotalCharCount host →
      ∃ dist off, (binaryCursorSearch oracle hostCoords host rf rl X).2
          = some ⟨true, some dist, some off⟩ ∧ off ≤ getTotalCharCount host) := by
  by_cases hn : getTotalCharCount host = 0
  · constructor
    · rw [binaryCursorSearch]
      simp [hn]
    · intro hpos
      omega
  · have hpos : 0 < getTotalCharCount host := Nat.pos_of_ne_zero hn
    have htns : textNodesUnder host ≠ [] := by
      intro he
      rw [getTotalCharCount, he] at hn
      simp at hn
    have hrun := searchLoop_ok oracle (textNodesUnder host) hostCoords rf rl X
      (getTotalCharCount host) htns rfl 20
      ⟨getTotalCharCount host / 2, 0, getTotalCharCount host⟩
      (getTotalCharCount host / 2) 0
      (by refine ⟨?_, ?_, ?_⟩ <;> simp <;> omega)
      (by omega)
    obtain ⟨ps, d2, off2, dist2, heq, hinv2, hoff2⟩ := hrun
    have hfin : (getTextNodeAndRelativeOffset (textNodesUnder host)
        d2.currentOffset 0).isSome := by
      apply getTextNodeAndRelativeOffset_isSome _ _ 0 htns
      obtain ⟨-, hb, hc⟩ := hinv2
      have : d2.currentOffset ≤ getTotalCharCount host := by omega
      simpa [getTotalCharCount] using this
    obtain ⟨v, hv⟩ := Option.isSome_iff_exists.mp hfin
    have hres : (binaryCursorSearch oracle hostCoords host rf rl X).2 =
        (if ((oracle d2.currentOffset).left - X).natAbs < dist2 then
          some ⟨true, some (((oracle d2.currentOffset).left - X).natAbs),
            some d2.currentOffset⟩
        else some ⟨true, some dist2, some off2⟩) := by
      rw [binaryCursorSearch]
      simp only [if_neg hn]
      rw [heq]
      simp only [hv]
      split <;> rfl
    constructor
    · constructor
      · intro habs
        rw [hres] at habs
        split at habs <;> simp at habs
      · intro h0
        omega
    · intro _
      rw [hres]
      split
      · refine ⟨_, d2.currentOffset, rfl, ?_⟩
        obtain ⟨-, hb, hc⟩ := hinv2
        omega
      · exact ⟨dist2, off2, rfl, hoff2⟩

/-- Witness for C6_found_iff_nonempty: the host holding the text Foo has 3
characters, and a search with target coordinate 99 and a constant rendering
oracle returns a found offset at most 3. -/
theorem C6_found_iff_nonempty_witness :
    0 < getTotalCharCount (.elem "DIV" [] [.text ['F', 'o', 'o']]) ∧
    (∃ dist off,
      (binaryCursorSearch (fun _ => ⟨0, 0, 0⟩) ⟨0, 0, 0⟩
          (.elem "DIV" [] [.text ['F', 'o', 'o']]) false false 99).2
        = some ⟨true, some dist, some off⟩ ∧
      off ≤ getTotalCharCount (.elem "DIV" [] [.text ['F', 'o', 'o']])) := by
  have hn : 0 < getTotalCharCount (.elem "DIV" [] [.text ['F', 'o', 'o']]) := by
    simp [getTotalCharCount, textNodesUnder, textNodesUnderL, removeMarked,
      getAttr]
  exact ⟨hn, (C6_found_iff_nonempty (fun _ => ⟨0, 0, 0⟩) ⟨0, 0, 0⟩
    (.elem "DIV" [] [.text ['F', 'o', 'o']]) false false 99).2 hn⟩

/-- Claim C7: whatever rendering rectangles the oracle reports, the loop of
binaryCursorSearch runs at most 20 iterations (the probe list records one
entry per executed iteration), so the search always terminates with a
result; termination itself is structural in this embedding. -/
theorem C7_loop_bounded (oracle : Nat → DRect) (hostCoords : DRect)
    (host : DNode) (rf rl : Bool) (X : Int) :
    (binaryCursorSearch oracle hostCoords host rf rl X).1.length ≤ 20 := by
  have h := searchLoop_probes_le oracle (textNodesUnder host) hostCoords
    rf rl X 20 ⟨getTotalCharCount host / 2, 0, getTotalCharCount host⟩
    (getTotalCharCount host / 2) 0
  by_cases hn : getTotalCharCount host = 0
  · rw [binaryCursorSearch]
    simp [hn]
  · rcases hsl : searchLoop oracle (textNodesUnder host) hostCoords rf rl X 20
        ⟨getTotalCharCount host / 2, 0, getTotalCharCount host⟩
        (getTotalCharCount host / 2) 0 with ⟨ps, r2⟩
    rw [hsl] at h
    have hres : (binaryCursorSearch oracle hostCoords host rf rl X).1 = ps := by
      rw [binaryCursorSearch]
      simp only [if_neg hn]
      rw [hsl]
      rcases r2 with - | ⟨d2, off2, dist2⟩
      · rfl
      · rcases hfin : getTextNodeAndRelativeOffset (textNodesUnder host)
            d2.currentOffset 0 with - | v
        · simp [hfin]
        · simp only [hfin]
          split <;> rfl
    rw [hres]
    simpa using h

/-- Rendering oracle of the C8 counterexample: the boundary at offset 0
renders at x = 5, the boundary at offset 1 at x = 1, all others at x = 0,
all on one line. -/
def c8Oracle : Nat → DRect
  | 0 => ⟨5, 0, 0⟩
  | 1 => ⟨1, 0, 0⟩
  | _ => ⟨0, 0, 0⟩

/-- Host of the C8 counterexample: a div holding the two-character text ab. -/
def c8Host : DNode := .elem "DIV" [] [.text ['a', 'b']]

/-- Claim C8, counterexample.  Searching c8Host for target x = 0 probes the
offsets 1 and 0 (in that order), then returns offset 0 with distance 5,
although the probed offset 1 rendered at distance 1 from the target: the
returned offset is not the probed offset with minimal absolute distance.
The loop probed offset 1 first (distance 1), moved left, probed offset 0
(distance 5), moved left again collapsing the interval, and the final
comparison only weighs the last loop probe against the final interval
offset, both of which are offset 0 here. -/
theorem C8_counterexample :
    binaryCursorSearch c8Oracle ⟨0, 0, 0⟩ c8Host false false 0
      = ([1, 0], some ⟨true, some 5, some 0⟩) ∧
    (1 : Nat) ∈ (binaryCursorSearch c8Oracle ⟨0, 0, 0⟩ c8Host false false 0).1 ∧
    ((c8Oracle 1).left - 0).natAbs < ((c8Oracle 0).left - 0).natAbs := by
  have hres : binaryCursorSearch c8Oracle ⟨0, 0, 0⟩ c8Host false false 0
      = ([1, 0], some ⟨true, some 5, some 0⟩) := by
    simp [binaryCursorSearch, searchLoop, textNodesUnder, textNodesUnderL,
      getTotalCharCount, getTextNodeAndRelativeOffset, moveLeft, moveRight,
      removeMarked, getAttr, c8Oracle, c8Host]
  refine ⟨hres, ?_, by decide⟩
  rw [hres]
  simp

/-- Claim C8, amended: the returned offset is the better of the final two
candidates only.  Whenever the loop completes (its result component is some
triple of the final interval state, the last in-loop probed offset and that
probe's distance), the search returns the final interval offset exactly when
its freshly probed distance is strictly smaller than the last in-loop
distance, and the last in-loop probed offset with its distance otherwise;
earlier probes are not consulted. -/
theorem C8_amended (oracle : Nat → DRect) (hostCoords : DRect) (host : DNode)
    (rf rl : Bool) (X : Int) (ps : List Nat) (d : BinarySearchData)
    (lastOff lastDist : Nat)
    (hn : 0 < getTotalCharCount host)
    (hrun : searchLoop oracle (textNodesUnder host) hostCoords rf rl X 20
        ⟨getTotalCharCount host / 2, 0, getTotalCharCount host⟩
        (getTotalCharCount host / 2) 0 = (ps, some (d, lastOff, lastDist))) :
    (binaryCursorSearch oracle hostCoords host rf rl X).2 =
      (if ((oracle d.currentOffset).left - X).natAbs < lastDist then
        some ⟨true, some (((oracle d.currentOffset).left - X).natAbs),
          some d.currentOffset⟩
      else some ⟨true, some lastDist, some lastOff⟩) := by
  have hn0 : getTotalCharCount host ≠ 0 := by omega
  have htns : textNodesUnder host ≠ [] := by
    intro he
    rw [getTotalCharCount, he] at hn0
    simp at hn0
  have hinv : searchInv (getTotalCharCount host) d := by
    obtain ⟨ps2, d2, off2, dist2, heq2, hinv2, -⟩ :=
      searchLoop_ok oracle (textNodesUnder host) hostCoords rf rl X
        (getTotalCharCount host) htns rfl 20
        ⟨getTotalCharCount host / 2, 0, getTotalCharCount host⟩
        (getTotalCharCount host / 2) 0
        (by refine ⟨?_, ?_, ?_⟩ <;> simp <;> omega) (by omega)
    rw [hrun] at heq2
    obtain ⟨-, h2⟩ := Prod.mk.injEq .. ▸ heq2
    obtain ⟨hd, -⟩ : d2 = d ∧ (off2, dist2) = (lastOff, lastDist) := by
      have := h2
      simp only [Option.some.injEq, Prod.mk.injEq] at this
      exact ⟨this.1.symm, by simp [this.2.1, this.2.2]⟩
    rw [← hd]
    exact hinv2
  have hfin : (getTextNodeAndRelativeOffset (textNodesUnder host)
      d.currentOffset 0).isSome := by
    apply getTextNodeAndRelativeOffset_isSome _ _ 0 htns
    obtain ⟨-, hb, hc⟩ := hinv
    have : d.currentOffset ≤ getTotalCharCount host := by omega
    simpa [getTotalCharCount] using this
  obtain ⟨v, hv⟩ := Option.isSome_iff_exists.mp hfin
  rw [binaryCursorSearch]
  simp only [if_neg hn0]
  rw [hrun]
  simp only [hv]
  split <;> rfl

/-- Witness for C8_amended at the counterexample inputs: the loop run is the
concrete two-probe run, and the theorem determines the returned record. -/
theorem C8_amended_witness :
    (binaryCursorSearch c8Oracle ⟨0, 0, 0⟩ c8Host false false 0).2
      = some ⟨true, some 5, some 0⟩ := by
  have h := C8_amended c8Oracle ⟨0, 0, 0⟩ c8Host false false 0 [1, 0]
    ⟨0, 0, 0⟩ 0 5
    (by simp [getTotalCharCount, textNodesUnder, textNodesUnderL,
      removeMarked, getAttr, c8Host])
    (by simp [searchLoop, textNodesUnder, textNodesUnderL, getTotalCharCount,
      getTextNodeAndRelativeOffset, moveLeft, moveRight, removeMarked,
      getAttr, c8Oracle, c8Host])
  simpa [c8Oracle] using h

/-! ## Claim C2: characterization of extractText

The claim describes extractText as contributing, in depth-first pre-order,
the data of each non-empty text node and one newline per BR element, with
elements whose data-editable attribute equals remove contributing zero
characters and their descendants never visited.  specTextC2 renders that
sentence literally; the code differs from it on exactly one point, a BR
element that itself carries data-editable="remove": the iterator does visit
the marked element (only its children are skipped), and the BR check of
getText precedes any attribute consideration, so such a BR still contributes
its newline. -/

/-- Reading of claim C2: remove-marked elements contribute nothing at all. -/
def specTextC2 : List DNode → Bool → List Char
  | [], _ => []
  | .text s :: ns, b => s ++ specTextC2 ns b
  | .elem t a cs :: ns, b =>
    (if removeMarked a then []
     else (if t = "BR" ∧ b then ['\n'] else []) ++ specTextC2 cs b) ++
    specTextC2 ns b

/-- Amended reading of claim C2: a remove-marked element still contributes
its own newline when it is a BR and conversion is on; its descendants are
never visited and contribute nothing. -/
def specTextC2Amended : List DNode → Bool → List Char
  | [], _ => []
  | .text s :: ns, b => s ++ specTextC2Amended ns b
  | .elem t a cs :: ns, b =>
    (if removeMarked a then (if t = "BR" ∧ b then ['\n'] else [])
     else (if t = "BR" ∧ b then ['\n'] else []) ++ specTextC2Amended cs b) ++
    specTextC2Amended ns b

/-- Host refuting claim C2 as stated: a BR element marked
data-editable="remove". -/
def c2Host : DNode := .elem "DIV" [] [.elem "BR" [("data-editable", "remove")] []]

/-- Claim C2, counterexample.  extractText gives the remove-marked BR a
newline, while the claim says a remove-marked element contributes zero
characters. -/
theorem C2_counterexample :
    extractText c2Host true = ['\n'] ∧
    specTextC2 [c2Host] true = [] ∧
    extractText c2Host true ≠ specTextC2 [c2Host] true := by
  refine ⟨?_, ?_, ?_⟩
  · simp [extractText, getTextL, removeMarked, getAttr, c2Host]
  · simp [specTextC2, removeMarked, getAttr, c2Host]
  · simp [extractText, getTextL, specTextC2, removeMarked, getAttr, c2Host]

/-- Claim C2, amended: extractText returns the concatenation, in depth-first
pre-order, of the data of each text node and one newline per visited BR
element (when conversion is enabled) including remove-marked BR elements;
descendants of remove-marked elements are never visited and contribute
nothing. -/
theorem C2_amended_extractText (host : DNode) (b : Bool) :
    extractText host b = specTextC2Amended [host] b := by
  rw [extractText]
  generalize [host] = ns
  induction ns, b using getTextL.induct with
  | case1 b => rw [getTextL, specTextC2Amended]
  | case2 s ns b ih => rw [getTextL, specTextC2Amended, ih]
  | case3 t a cs ns b ih1 ih2 =>
    rw [getTextL, specTextC2Amended, ih1, ih2]
    by_cases hr : removeMarked a
    · simp [hr]
    · simp [hr]

/-! ## Highlight overlay: apply and remove

Embedding of highlightMatches / wrapMatch / wrapPortion of part_011 and of
removeHighlight of highlight-support.ts (with content.unwrap of content.ts
and DOM Node.normalize).

Wrapping one portion (wrapPortion): the source builds a Range over the
character interval [offset, offset+length) of one text node, deep-clones the
stencil element, tags the clone with data-word-id (and optionally title) and
calls range.surroundContents(clone).  Per the DOM specification this
extracts the selected characters, removes any children the clone had, and
re-inserts the clone at the cut, which splits the text node into
  [text before, clone holding the extracted text, text after]
where the before piece keeps the characters up to the cut even when empty,
and the after piece is removed by the source when empty (the explicit
empty-text-node fix at the end of wrapPortion).

Wrapping a whole match (the highlightMatches loop): the source collects the
portions of the current match while walking, wrapping nothing until the last
portion is reached, and then wraps every collected portion at once
(wrapMatch), re-entering the iterator at the last clone.  Until that moment
the walk has only moved forward, so each collected portion still describes
an untouched text node, and wrapping the collected portions mutates
pairwise-distinct text nodes that the walk has already passed.  The
embedding below therefore wraps each portion at the moment the walk passes
it; on every match list satisfying the applier precondition (sorted,
non-overlapping, in range, see the C1 theorem hypotheses) this produces the
same tree as the deferred wrapping of the source. -/

/-- Stencil element of a match (the marker of part_011): tag and attributes.
Children of the stencil play no role: surroundContents removes the children
of the wrapper before appending the extracted content. -/
structure Marker where
  tag : String
  attrs : Attrs
deriving DecidableEq, Repr

/-- Match as consumed by highlightMatches (ExtendedMatch of part_011): span,
optional id and title, stencil.  The matched text field of the source is
unused (only the indexes are used for highlighting). -/
structure HMatch where
  startIndex : Nat
  endIndex : Nat
  id : Option String
  title : Option String
  marker : Marker
deriving DecidableEq, Repr

/-- Embedding of the wordId computation (part_011 lines 59 and 82): the id
when present and truthy, the startIndex rendered as a string otherwise. -/
def wordId (m : HMatch) : String :=
  match m.id with
  | some s => if s = "" then toString m.startIndex else s
  | none => toString m.startIndex

/-- Attributes of the inserted wrapper: the stencil attributes with
data-word-id set, and title set when the source would (a JS truthiness
test, so an empty title is not set). -/
def wrapAttrs (m : HMatch) : Attrs :=
  let a1 := setAttr m.marker.attrs "data-word-id" (wordId m)
  match m.title with
  | some t => if t = "" then a1 else setAttr a1 "title" t
  | none => a1

/-- Wrapper element inserted around one portion (wrapPortion): the cloned
stencil, tagged, holding the extracted characters. -/
def wrapNode (m : HMatch) (mid : List Char) : DNode :=
  .elem m.marker.tag (wrapAttrs m) [.text mid]

/-- Walk of one non-empty text node against the match list (the body of the
highlightMatches loop for a visited text node, part_011 lines 74-129).
Arguments: the node data, the running totalOffset, the unconsumed matches
(the head is currentMatch).  Returns the replacement nodes, the new
totalOffset and the remaining matches.  The branches follow the source:
no overlap leaves the node alone and advances the offset by the node
length; a non-final portion (the match continues past this node) wraps from
the portion offset to the end of the node; a final portion wraps the
in-node tail of the match, recomputes the offset to the end of the wrapped
range, advances to the next match, and continues in the after piece, which
the walk visits next - unless the after piece is empty, in which case the
source removed it. -/
def processText : List Char → Nat → List HMatch → (List DNode × Nat × List HMatch)
  | s, off, [] => ([.text s], off + s.length, [])
  | s, off, m :: rest =>
    let nodeEnd := off + s.length
    if m.startIndex < nodeEnd ∧ off < m.endIndex then
      let o := if off ≤ m.startIndex then m.startIndex - off else 0
      if m.endIndex ≤ nodeEnd then
        let l := (m.endIndex - off) - o
        let mid := (s.drop o).take l
        let after := s.drop (o + l)
        if after.isEmpty then
          ([.text (s.take o), wrapNode m mid], off + o + l, rest)
        else
          let r := processText after (off + o + l) rest
          (.text (s.take o) :: wrapNode m mid :: r.1, r.2)
      else
        ([.text (s.take o), wrapNode m (s.drop o)], nodeEnd, m :: rest)
    else
      ([.text s], nodeEnd, m :: rest)

/-- Walk of a sibling list against the match list (the iterator-driven
while loop of highlightMatches): empty text nodes are visited but skipped,
non-empty text nodes go through processText, a BR element advances the
offset by one when countBRs is set and is never wrapped, children of
remove-marked elements are not visited, other elements are traversed in
place. -/
def hlChildren (b : Bool) : List DNode → Nat → List HMatch →
    (List DNode × Nat × List HMatch)
  | [], off, ms => ([], off, ms)
  | .text s :: ns, off, ms =>
    if s.isEmpty then
      let r := hlChildren b ns off ms
      (.text s :: r.1, r.2)
    else
      let rt := processText s off ms
      let r := hlChildren b ns rt.2.1 rt.2.2
      (rt.1 ++ r.1, r.2)
  | .elem t a cs :: ns, off, ms =>
    let off1 := if t = "BR" ∧ b then off + 1 else off
    if removeMarked a then
      let r := hlChildren b ns off1 ms
      (.elem t a cs :: r.1, r.2)
    else
      let rc := hlChildren b cs off1 ms
      let r := hlChildren b ns rc.2.1 rc.2.2
      (.elem t a rc.1 :: r.1, r.2)

/-- Embedding of DOM Node.normalize on a sibling list: empty text nodes are
removed, adjacent text nodes are merged, and element subtrees are
normalized recursively. -/
def normChildren : List DNode → List DNode
  | [] => []
  | .text s :: ns =>
    let r := normChildren ns
    if s.isEmpty then r
    else
      match r with
      | .text s2 :: rest => .text (s ++ s2) :: rest
      | _ => .text s :: r
  | .elem t a cs :: ns => .elem t a (normChildren cs) :: normChildren ns

/-- Embedding of element.normalize(): normalize the subtree below the
node. -/
def dnormalize : DNode → DNode
  | .text s => .text s
  | .elem t a cs => .elem t a (normChildren cs)

/-- Embedding of highlightMatches(element, matches, countBRs) of part_011:
nothing happens on an empty match list; otherwise the host subtree is
normalized and walked.  The host element itself is the first visited node,
so a BR host starts the offset at one and a remove-marked host has no
children visited; a host that is a bare text node cannot be split in place
and does not occur (hosts are elements). -/
def highlightMatches (host : DNode) (ms : List HMatch) (countBRs : Bool) : DNode :=
  if ms.isEmpty then host
  else
    match dnormalize host with
    | .text s => .text s
    | .elem t a cs =>
      if removeMarked a then .elem t a cs
      else .elem t a (hlChildren countBRs cs (if t = "BR" ∧ countBRs then 1 else 0) ms).1

/-- Embedding of the unwrap loop of removeHighlight (highlight-support.ts
lines 108-111, content.unwrap): every element of the subtree whose
data-word-id attribute equals the id is replaced by its children, in place.
querySelectorAll snapshots all such elements up front and unwrap keeps the
children in the tree, so nested tagged elements are unwrapped as well,
which the recursion renders by unwrapping inside-out. -/
def unwrapId (wid : String) : List DNode → List DNode
  | [] => []
  | .text s :: ns => .text s :: unwrapId wid ns
  | .elem t a cs :: ns =>
    let inner := unwrapId wid cs
    if getAttr a "data-word-id" = some wid then inner ++ unwrapId wid ns
    else .elem t a inner :: unwrapId wid ns

/-- Embedding of removeHighlight(editableHost, highlightId)
(highlight-support.ts lines 107-117): unwrap every node tagged with the id
(the host itself is not a query result), then normalize the host. -/
def removeHighlight (host : DNode) (wid : String) : DNode :=
  match host with
  | .text s => .text s
  | .elem t a cs => dnormalize (.elem t a (unwrapId wid cs))

/-- Removal of a list of highlight ids, one removeHighlight call each. -/
def removeHighlights (host : DNode) (ids : List String) : DNode :=
  ids.foldl removeHighlight host

/-! ## Predicates for the C1 round trip -/

/-- Subtrees containing no internal-marked (data-editable="remove") node. -/
def noRemoveL : List DNode → Prop
  | [] => True
  | .text _ :: ns => noRemoveL ns
  | .elem _ a cs :: ns => ¬ removeMarked a ∧ noRemoveL cs ∧ noRemoveL ns

/-- Subtrees containing no element tagged with any data-word-id: removal by
id then removes exactly the wrappers the apply step inserted. -/
def noWordIdL : List DNode → Prop
  | [] => True
  | .text _ :: ns => noWordIdL ns
  | .elem _ a cs :: ns =>
      getAttr a "data-word-id" = none ∧ noWordIdL cs ∧ noWordIdL ns

/-- Subtrees in which every element tagged with a data-word-id is a real
decoration wrapper: not a line break and not internal-marked, so unwrapping
it is linearization-neutral. -/
def goodTaggedL : List DNode → Prop
  | [] => True
  | .text _ :: ns => goodTaggedL ns
  | .elem t a cs :: ns =>
      ((getAttr a "data-word-id").isSome → t ≠ "BR" ∧ ¬ removeMarked a) ∧
      goodTaggedL cs ∧ goodTaggedL ns

/-- Decoration stencil accepted by the applier: an inline wrapper, not a
line break and not internal-marked. -/
def goodMarker (mk : Marker) : Prop :=
  mk.tag ≠ "BR" ∧ getAttr mk.attrs "data-editable" ≠ some "remove"

/-- Non-overlap of consecutive highlight matches (the applier
precondition). -/
def hmLE (m1 m2 : HMatch) : Prop := m1.endIndex ≤ m2.startIndex

/-! ## Linearization is invariant under the overlay operations -/

theorem getTextL_append (ns ms : List DNode) (c : Bool) :
    getTextL (ns ++ ms) c = getTextL ns c ++ getTextL ms c := by
  induction ns, c using getTextL.induct with
  | case1 c => simp [getTextL]
  | case2 s ns c ih => simp [getTextL, ih]
  | case3 t a cs ns c ih1 ih2 => simp [getTextL, ih2]

theorem getAttr_setAttr_ne (a : Attrs) (k v k2 : String) (h : k ≠ k2) :
    getAttr (setAttr a k v) k2 = getAttr a k2 := by
  induction a with
  | nil => simp [setAttr, getAttr, h]
  | cons kv rest ih =>
    obtain ⟨k3, v3⟩ := kv
    rw [setAttr]
    by_cases h3 : k3 = k
    · subst h3
      simp [getAttr, h]
    · simp only [if_neg h3]
      rw [getAttr, getAttr, ih]

theorem wrapNode_text (m : HMatch) (mid : List Char) (c : Bool)
    (hg : goodMarker m.marker) :
    getTextL [wrapNode m mid] c = mid := by
  obtain ⟨htag, hrm⟩ := hg
  have hattr : ¬ removeMarked (wrapAttrs m) := by
    rw [removeMarked, wrapAttrs]
    have h1 : getAttr (setAttr m.marker.attrs "data-word-id" (wordId m))
        "data-editable" = getAttr m.marker.attrs "data-editable" :=
      getAttr_setAttr_ne _ _ _ _ (by decide)
    split
    · next t =>
      split
      · simpa [h1] using hrm
      · rw [getAttr_setAttr_ne _ _ _ _ (by decide), h1]
        simpa using hrm
    · simpa [h1] using hrm
  rw [wrapNode, getTextL, getTextL, getTextL, getTextL]
  simp [htag, hattr]

theorem processText_text (c : Bool) :
    ∀ (ms : List HMatch) (s : List Char) (off : Nat),
      (∀ m ∈ ms, goodMarker m.marker) →
      getTextL (processText s off ms).1 c = s := by
  intro ms
  induction ms with
  | nil =>
    intro s off _
    simp [processText, getTextL]
  | cons m rest ih =>
    intro s off hgood
    have hw : ∀ mid, getTextL [wrapNode m mid] c = mid :=
      fun mid => wrapNode_text m mid c (hgood m (by simp))
    have hwc : ∀ (mid : List Char) (tail : List DNode),
        getTextL (wrapNode m mid :: tail) c = mid ++ getTextL tail c := by
      intro mid tail
      have h := getTextL_append [wrapNode m mid] tail c
      simpa [hw] using h
    rw [processText]
    by_cases hov : m.startIndex < off + s.length ∧ off < m.endIndex
    case neg =>
      rw [if_neg hov]
      simp [getTextL]
    case pos =>
      rw [if_pos hov]
      by_cases hlast : m.endIndex ≤ off + s.length
      case neg =>
        rw [if_neg hlast]
        simp [getTextL, hw]
      case pos =>
        rw [if_pos hlast]
        set o := (if off ≤ m.startIndex then m.startIndex - off else 0) with ho
        set l := m.endIndex - off - o with hl
        have h2 := List.take_append_drop o s
        have h3 := List.take_append_drop l (s.drop o)
        rw [List.drop_drop] at h3
        by_cases hemp : (s.drop (o + l)).isEmpty
        case pos =>
          rw [if_pos hemp]
          have hafter : s.drop (o + l) = [] := List.isEmpty_iff.mp hemp
          rw [hafter, List.append_nil] at h3
          simp only [getTextL, hwc]
          conv_rhs => rw [← h2, ← h3]
          simp
        case neg =>
          rw [if_neg hemp]
          simp only [getTextL, hwc]
          rw [ih _ _ (fun x hx => hgood x (by simp [hx]))]
          conv_rhs => rw [← h2, ← h3]

theorem processText_ms_sub :
    ∀ (ms : List HMatch) (s : List Char) (off : Nat) (x : HMatch),
      x ∈ (processText s off ms).2.2 → x ∈ ms := by
  intro ms
  induction ms with
  | nil =>
    intro s off x hx
    simpa [processText] using hx
  | cons m rest ih =>
    intro s off x hx
    rw [processText] at hx
    by_cases hov : m.startIndex < off + s.length ∧ off < m.endIndex
    · rw [if_pos hov] at hx
      by_cases hlast : m.endIndex ≤ off + s.length
      · rw [if_pos hlast] at hx
        by_cases hemp : (s.drop ((if off ≤ m.startIndex then m.startIndex - off
            else 0) + (m.endIndex - off -
              (if off ≤ m.startIndex then m.startIndex - off else 0)))).isEmpty
        · rw [if_pos hemp] at hx
          exact List.mem_cons_of_mem _ hx
        · rw [if_neg hemp] at hx
          exact List.mem_cons_of_mem _ (ih _ _ _ hx)
      · rw [if_neg hlast] at hx
        exact hx
    · rw [if_neg hov] at hx
      exact hx

theorem hlChildren_ms_sub (b : Bool) (ns : List DNode) (off : Nat)
    (ms : List HMatch) :
    ∀ x : HMatch, x ∈ (hlChildren b ns off ms).2.2 → x ∈ ms := by
  induction ns, off, ms using hlChildren.induct b with
  | case1 off ms =>
    intro x hx
    simpa [hlChildren] using hx
  | case2 s ns off ms hemp ih =>
    intro x hx
    simp only [hlChildren, if_pos hemp] at hx
    exact ih x hx
  | case3 s ns off ms hemp rt ih =>
    intro x hx
    simp only [hlChildren, if_neg hemp] at hx
    exact processText_ms_sub _ _ _ _ (ih x hx)
  | case4 t a cs ns off ms off1 hrm ih =>
    intro x hx
    simp only [hlChildren, if_pos hrm] at hx
    exact ih x hx
  | case5 t a cs ns off ms off1 hrm rc ih1 ih2 ih3 =>
    intro x hx
    simp only [hlChildren, if_neg hrm] at hx
    exact ih1 x (ih3 x hx)

theorem hlChildren_text (c : Bool) (b : Bool) (ns : List DNode) (off : Nat)
    (ms : List HMatch) :
    (∀ m ∈ ms, goodMarker m.marker) →
    getTextL (hlChildren b ns off ms).1 c = getTextL ns c := by
  induction ns, off, ms using hlChildren.induct b with
  | case1 off ms =>
    intro _
    simp [hlChildren]
  | case2 s ns off ms hemp ih =>
    intro hgood
    simp only [hlChildren, if_pos hemp]
    rw [getTextL, getTextL, ih hgood]
  | case3 s ns off ms hemp rt ih =>
    intro hgood
    simp only [hlChildren, if_neg hemp]
    rw [getTextL_append]
    rw [ih (fun x hx => hgood x (processText_ms_sub _ _ _ _ hx))]
    rw [processText_text c ms s off hgood, getTextL]
  | case4 t a cs ns off ms off1 hrm ih =>
    intro hgood
    simp only [hlChildren, if_pos hrm]
    have ihg : getTextL (hlChildren b ns
        (if t = "BR" ∧ b = true then off + 1 else off) ms).1 c
        = getTextL ns c := ih hgood
    rw [getTextL, getTextL, ihg]
  | case5 t a cs ns off ms off1 hrm rc ih1 ih2 ih3 =>
    intro hgood
    simp only [hlChildren, if_neg hrm]
    have ihg3 : getTextL (hlChildren b ns
        (hlChildren b cs (if t = "BR" ∧ b = true then off + 1 else off) ms).2.1
        (hlChildren b cs (if t = "BR" ∧ b = true then off + 1 else off) ms).2.2).1 c
        = getTextL ns c :=
      ih3 (fun x hx => hgood x (hlChildren_ms_sub b cs _ ms x hx))
    have ihg1 : getTextL (hlChildren b cs
        (if t = "BR" ∧ b = true then off + 1 else off) ms).1 c
        = getTextL cs c := ih1 hgood
    rw [getTextL, getTextL, ihg3, ihg1]

theorem normChildren_text (c : Bool) (ns : List DNode) :
    getTextL (normChildren ns) c = getTextL ns c := by
  induction ns using normChildren.induct with
  | case1 => simp [normChildren, getTextL]
  | case2 s ns hemp ih =>
    rw [normChildren]
    simp only [if_pos hemp]
    rw [getTextL, List.isEmpty_iff.mp hemp, ih]
    simp
  | case3 s ns r hne s2 rest hr ih =>
    rw [normChildren]
    simp only [if_neg hne]
    rw [show normChildren ns = DNode.text s2 :: rest from hr]
    rw [show normChildren ns = DNode.text s2 :: rest from hr] at ih
    rw [getTextL] at ih
    rw [getTextL, getTextL, List.append_assoc, ih]
  | case4 s ns r hne hnotext ih =>
    rw [normChildren]
    simp only [if_neg hne]
    rcases hn : normChildren ns with - | ⟨n1, rest⟩
    · rw [hn] at ih
      simp only [getTextL] at ih ⊢
      simp [← ih]
    · cases n1 with
      | text s2 => exact absurd hn (hnotext s2 rest)
      | elem t2 a2 cs2 =>
        rw [hn] at ih
        rw [getTextL, getTextL, ih]
  | case5 t a cs ns ih1 ih2 =>
    rw [normChildren, getTextL, getTextL, ih1, ih2]

theorem unwrapId_text (c : Bool) (wid : String) (ns : List DNode) :
    goodTaggedL ns → getTextL (unwrapId wid ns) c = getTextL ns c := by
  induction ns using unwrapId.induct wid with
  | case1 =>
    intro _
    simp [unwrapId]
  | case2 s ns ih =>
    intro hg
    rw [goodTaggedL] at hg
    rw [unwrapId, getTextL, getTextL, ih hg]
  | case3 t a cs ns htag ihc ihn =>
    intro hg
    rw [goodTaggedL] at hg
    obtain ⟨hga, hgc, hgn⟩ := hg
    have hgood := hga (by simp [htag])
    rw [unwrapId]
    simp only [if_pos htag]
    rw [getTextL_append]
    rw [ihc hgc, ihn hgn, getTextL]
    have hnr : ¬ removeMarked a = true := hgood.2
    simp [hgood.1, hnr]
  | case4 t a cs ns htag ihc ihn =>
    intro hg
    rw [goodTaggedL] at hg
    obtain ⟨hga, hgc, hgn⟩ := hg
    rw [unwrapId]
    simp only [if_neg htag]
    rw [getTextL, getTextL, ihc hgc, ihn hgn]

theorem goodTaggedL_append (xs ys : List DNode) :
    goodTaggedL (xs ++ ys) ↔ goodTaggedL xs ∧ goodTaggedL ys := by
  induction xs with
  | nil => simp [goodTaggedL]
  | cons x xs ih =>
    cases x with
    | text s => simpa [goodTaggedL] using ih
    | elem t a cs =>
      rw [List.cons_append, goodTaggedL, goodTaggedL, ih]
      tauto

theorem wrapAttrs_not_remove (m : HMatch) (hg : goodMarker m.marker) :
    ¬ removeMarked (wrapAttrs m) := by
  obtain ⟨-, hrm⟩ := hg
  rw [removeMarked, wrapAttrs]
  have h1 : getAttr (setAttr m.marker.attrs "data-word-id" (wordId m))
      "data-editable" = getAttr m.marker.attrs "data-editable" :=
    getAttr_setAttr_ne _ _ _ _ (by decide)
  split
  · next t =>
    split
    · simpa [h1] using hrm
    · rw [getAttr_setAttr_ne _ _ _ _ (by decide), h1]
      simpa using hrm
  · simpa [h1] using hrm

theorem wrapNode_good (m : HMatch) (mid : List Char) (hg : goodMarker m.marker) :
    goodTaggedL [wrapNode m mid] := by
  rw [wrapNode, goodTaggedL]
  refine ⟨fun _ => ⟨hg.1, by simpa using wrapAttrs_not_remove m hg⟩, ?_, ?_⟩
  · rw [goodTaggedL, goodTaggedL]
    trivial
  · rw [goodTaggedL]
    trivial

theorem processText_good :
    ∀ (ms : List HMatch) (s : List Char) (off : Nat),
      (∀ m ∈ ms, goodMarker m.marker) →
      goodTaggedL (processText s off ms).1 := by
  intro ms
  induction ms with
  | nil =>
    intro s off _
    rw [processText]
    show goodTaggedL [.text s]
    rw [goodTaggedL, goodTaggedL]
    trivial
  | cons m rest ih =>
    intro s off hgood
    rw [processText]
    by_cases hov : m.startIndex < off + s.length ∧ off < m.endIndex
    · rw [if_pos hov]
      by_cases hlast : m.endIndex ≤ off + s.length
      · rw [if_pos hlast]
        by_cases hemp : (s.drop ((if off ≤ m.startIndex then m.startIndex - off
            else 0) + (m.endIndex - off -
              (if off ≤ m.startIndex then m.startIndex - off else 0)))).isEmpty
        · rw [if_pos hemp]
          show goodTaggedL (.text _ :: [wrapNode m _])
          rw [goodTaggedL]
          exact wrapNode_good m _ (hgood m (by simp))
        · rw [if_neg hemp]
          show goodTaggedL (.text _ :: wrapNode m _ :: _)
          rw [goodTaggedL, ← List.singleton_append]
          exact (goodTaggedL_append _ _).mpr
            ⟨wrapNode_good m _ (hgood m (by simp)),
             ih _ _ (fun x hx => hgood x (by simp [hx]))⟩
      · rw [if_neg hlast]
        show goodTaggedL (.text _ :: [wrapNode m _])
        rw [goodTaggedL]
        exact wrapNode_good m _ (hgood m (by simp))
    · rw [if_neg hov]
      show goodTaggedL [.text s]
      rw [goodTaggedL, goodTaggedL]
      trivial

theorem noWordIdL_good (ns : List DNode) (h : noWordIdL ns) : goodTaggedL ns := by
  induction ns using goodTaggedL.induct with
  | case1 =>
    rw [goodTaggedL]
    trivial
  | case2 s ns ih =>
    rw [noWordIdL] at h
    rw [goodTaggedL]
    exact ih h
  | case3 t a cs ns ihc ihn =>
    rw [noWordIdL] at h
    obtain ⟨ha, hc, hn⟩ := h
    rw [goodTaggedL]
    exact ⟨fun hs => by simp [ha] at hs, ihc hc, ihn hn⟩

theorem hlChildren_good (b : Bool) (ns : List DNode) (off : Nat)
    (ms : List HMatch) :
    goodTaggedL ns → (∀ m ∈ ms, goodMarker m.marker) →
    goodTaggedL (hlChildren b ns off ms).1 := by
  induction ns, off, ms using hlChildren.induct b with
  | case1 off ms =>
    intro _ _
    rw [hlChildren]
    show goodTaggedL []
    rw [goodTaggedL]
    trivial
  | case2 s ns off ms hemp ih =>
    intro hg hgood
    rw [goodTaggedL] at hg
    simp only [hlChildren, if_pos hemp]
    show goodTaggedL (.text s :: _)
    rw [goodTaggedL]
    exact ih hg hgood
  | case3 s ns off ms hemp rt ih =>
    intro hg hgood
    rw [goodTaggedL] at hg
    simp only [hlChildren, if_neg hemp]
    rw [goodTaggedL_append]
    exact ⟨processText_good ms s off hgood,
      ih hg (fun x hx => hgood x (processText_ms_sub _ _ _ _ hx))⟩
  | case4 t a cs ns off ms off1 hrm ih =>
    intro hg hgood
    rw [goodTaggedL] at hg
    obtain ⟨ha, hc, hn⟩ := hg
    simp only [hlChildren, if_pos hrm]
    show goodTaggedL (.elem t a cs :: _)
    rw [goodTaggedL]
    exact ⟨ha, hc, ih hn hgood⟩
  | case5 t a cs ns off ms off1 hrm rc ih1 ih2 ih3 =>
    intro hg hgood
    rw [goodTaggedL] at hg
    obtain ⟨ha, hc, hn⟩ := hg
    simp only [hlChildren, if_neg hrm]
    show goodTaggedL (.elem t a _ :: _)
    rw [goodTaggedL]
    refine ⟨ha, ih1 hc hgood, ?_⟩
    exact ih3 hn (fun x hx => hgood x (hlChildren_ms_sub b cs _ ms x hx))

theorem normChildren_good (ns : List DNode) (h : goodTaggedL ns) :
    goodTaggedL (normChildren ns) := by
  induction ns using normChildren.induct with
  | case1 =>
    rw [normChildren]
    exact h
  | case2 s ns hemp ih =>
    rw [goodTaggedL] at h
    rw [normChildren]
    simp only [if_pos hemp]
    exact ih h
  | case3 s ns r hne s2 rest hr ih =>
    rw [goodTaggedL] at h
    rw [normChildren]
    simp only [if_neg hne]
    rw [show normChildren ns = DNode.text s2 :: rest from hr]
    have := ih h
    rw [show normChildren ns = DNode.text s2 :: rest from hr] at this
    rw [goodTaggedL] at this ⊢
    exact this
  | case4 s ns r hne hnotext ih =>
    rw [goodTaggedL] at h
    rw [normChildren]
    simp only [if_neg hne]
    rcases hn : normChildren ns with - | ⟨n1, rest⟩
    · rw [hn] at ih
      show goodTaggedL (.text s :: _)
      rw [goodTaggedL]
      exact ih h
    · cases n1 with
      | text s2 => exact absurd hn (hnotext s2 rest)
      | elem t2 a2 cs2 =>
        have := ih h
        rw [hn] at this
        show goodTaggedL (.text s :: _)
        rw [goodTaggedL]
        exact this
  | case5 t a cs ns ih1 ih2 =>
    rw [goodTaggedL] at h
    obtain ⟨ha, hc, hn⟩ := h
    rw [normChildren]
    show goodTaggedL (.elem t a _ :: _)
    rw [goodTaggedL]
    exact ⟨ha, ih1 hc, ih2 hn⟩

theorem unwrapId_good (wid : String) (ns : List DNode) (h : goodTaggedL ns) :
    goodTaggedL (unwrapId wid ns) := by
  induction ns using unwrapId.induct wid with
  | case1 =>
    rw [unwrapId]
    exact h
  | case2 s ns ih =>
    rw [goodTaggedL] at h
    rw [unwrapId]
    show goodTaggedL (.text s :: _)
    rw [goodTaggedL]
    exact ih h
  | case3 t a cs ns htag ihc ihn =>
    rw [goodTaggedL] at h
    obtain ⟨ha, hc, hn⟩ := h
    rw [unwrapId]
    simp only [if_pos htag]
    rw [goodTaggedL_append]
    exact ⟨ihc hc, ihn hn⟩
  | case4 t a cs ns htag ihc ihn =>
    rw [goodTaggedL] at h
    obtain ⟨ha, hc, hn⟩ := h
    rw [unwrapId]
    simp only [if_neg htag]
    show goodTaggedL (.elem t a _ :: _)
    rw [goodTaggedL]
    exact ⟨ha, ihc hc, ihn hn⟩

theorem dnormalize_text (c : Bool) (host : DNode) :
    extractText (dnormalize host) c = extractText host c := by
  cases host with
  | text s => rfl
  | elem t a cs =>
    rw [extractText, extractText, dnormalize]
    simp only [getTextL, normChildren_text]

theorem dnormalize_good (host : DNode) (h : goodTaggedL [host]) :
    goodTaggedL [dnormalize host] := by
  cases host with
  | text s => exact h
  | elem t a cs =>
    rw [goodTaggedL] at h
    obtain ⟨ha, hc, hn⟩ := h
    rw [dnormalize, goodTaggedL]
    exact ⟨ha, normChildren_good cs hc, hn⟩

theorem highlightMatches_text (c : Bool) (host : DNode) (ms : List HMatch)
    (b : Bool) (hgood : ∀ m ∈ ms, goodMarker m.marker) :
    extractText (highlightMatches host ms b) c = extractText host c := by
  rw [highlightMatches]
  split
  · rfl
  · rcases hd : dnormalize host with s | ⟨t, a, cs⟩
    · simp only [hd]
      rw [← hd]
      exact dnormalize_text c host
    · simp only [hd]
      split
    -- the remove-marked host: children untouched
      · rw [← hd]
        exact dnormalize_text c host
      · next hrm =>
        rw [← dnormalize_text c host, hd]
        rw [extractText, extractText]
        simp only [getTextL]
        rw [hlChildren_text c b cs (if t = "BR" ∧ b = true then 1 else 0)
          ms hgood]

theorem highlightMatches_good (host : DNode) (ms : List HMatch) (b : Bool)
    (h1 : noWordIdL [host]) (hgood : ∀ m ∈ ms, goodMarker m.marker) :
    goodTaggedL [highlightMatches host ms b] := by
  have hg : goodTaggedL [host] := noWordIdL_good _ h1
  rw [highlightMatches]
  split
  · exact hg
  · have hgd := dnormalize_good host hg
    rcases hd : dnormalize host with s | ⟨t, a, cs⟩
    · simp only [hd]
      rw [hd] at hgd
      exact hgd
    · simp only [hd]
      rw [hd] at hgd
      rw [goodTaggedL] at hgd
      obtain ⟨ha, hc, hn⟩ := hgd
      split
      · rw [goodTaggedL]
        exact ⟨ha, hc, hn⟩
      · rw [goodTaggedL]
        exact ⟨ha, hlChildren_good b cs _ ms hc hgood, hn⟩

theorem removeHighlight_text_good (c : Bool) (host : DNode) (wid : String)
    (h : goodTaggedL [host]) :
    extractText (removeHighlight host wid) c = extractText host c ∧
    goodTaggedL [removeHighlight host wid] := by
  cases host with
  | text s => exact ⟨rfl, h⟩
  | elem t a cs =>
    rw [goodTaggedL] at h
    obtain ⟨ha, hc, hn⟩ := h
    rw [removeHighlight, dnormalize]
    constructor
    · rw [extractText, extractText]
      simp only [getTextL, normChildren_text, unwrapId_text c wid cs hc]
    · rw [goodTaggedL]
      exact ⟨ha, normChildren_good _ (unwrapId_good wid cs hc), hn⟩

theorem removeHighlights_text (c : Bool) (ids : List String) :
    ∀ (host : DNode), goodTaggedL [host] →
      extractText (removeHighlights host ids) c = extractText host c := by
  induction ids with
  | nil =>
    intro host _
    rfl
  | cons i ids ih =>
    intro host h
    obtain ⟨he, hg⟩ := removeHighlight_text_good c host i h
    rw [removeHighlights, List.foldl_cons]
    rw [show List.foldl removeHighlight (removeHighlight host i) ids
        = removeHighlights (removeHighlight host i) ids from rfl]
    rw [ih _ hg, he]

/-- Decidability of the stencil acceptability test, for concrete checks. -/
instance : DecidablePred goodMarker := fun mk =>
  decidable_of_iff
    (mk.tag ≠ "BR" ∧ getAttr mk.attrs "data-editable" ≠ some "remove")
    Iff.rfl

/-- Decidability of match non-overlap, for concrete checks. -/
instance : DecidableRel hmLE := fun m1 m2 =>
  decidable_of_iff (m1.endIndex ≤ m2.startIndex) Iff.rfl

/-- Claim C1: on a host subtree containing no internal-marked
(data-editable="remove") node and carrying no pre-existing data-word-id
tags, applying the highlight decorations of any match list the applier
accepts (matches sorted and mutually non-overlapping, each non-degenerate
and within the linearized text, each with an inline decoration stencil that
is neither a BR nor internal-marked) and then removing the decorations by id
(unwrapping every node tagged with each id and normalizing adjacent text
nodes) leaves extractText of the host character-for-character unchanged.
The sortedness, in-range and host hypotheses delimit the applier
precondition under which the source wraps exactly the embedded portions;
the linearization preservation itself is proved for every wrap the
embedding can perform. -/
theorem C1_roundTrip_extractText (host : DNode) (ms : List HMatch) (b : Bool)
    (ids : List String)
    (hnr : noRemoveL [host])
    (hwid : noWordIdL [host])
    (hmk : ∀ m ∈ ms, goodMarker m.marker)
    (hsorted : List.Chain' hmLE ms)
    (hpos : ∀ m ∈ ms, m.startIndex < m.endIndex)
    (hrange : ∀ m ∈ ms, m.endIndex ≤ (extractText host b).length) :
    extractText (removeHighlights (highlightMatches host ms b) ids) true
      = extractText host true := by
  rw [removeHighlights_text true ids _ (highlightMatches_good host ms b hwid hmk)]
  exact highlightMatches_text true host ms b hmk

/-- Witness for C1_roundTrip_extractText: highlighting People at [0,2) and
[3,5) with two span decorations and then removing both ids round-trips the
extracted text. -/
theorem C1_roundTrip_extractText_witness :
    extractText (removeHighlights (highlightMatches
        (.elem "DIV" [] [.text ['P', 'e', 'o', 'p', 'l', 'e']])
        [⟨0, 2, some "a", none, ⟨"SPAN", [("data-editable", "ui-unwrap")]⟩⟩,
         ⟨3, 5, some "b", none, ⟨"SPAN", [("data-editable", "ui-unwrap")]⟩⟩]
        true) ["a", "b"]) true
      = extractText (.elem "DIV" [] [.text ['P', 'e', 'o', 'p', 'l', 'e']]) true := by
  apply C1_roundTrip_extractText
  · simp [noRemoveL, removeMarked, getAttr]
  · simp [noWordIdL, getAttr]
  · decide
  · simp [List.chain'_cons, List.chain'_singleton, hmLE]
  · decide
  · have hlen : (extractText (.elem "DIV" []
        [.text ['P', 'e', 'o', 'p', 'l', 'e']]) true).length = 6 := by
      simp [extractText, getTextL, removeMarked, getAttr]
    intro m hm
    rw [hlen]
    fin_cases hm <;> decide

/-! ## Claim C10: the node iterator after replaceCurrent

Embedding of NodeIterator (node-iterator.ts).  A position in the (immutable)
tree is the path of child indices from the root; the iterator state is its
nextNode pointer, an optional position.  getNext returns the current node
(the stored nextNode) and computes the new nextNode: the first child when
the current node has one and is not remove-marked, and otherwise the walk up
the parent chain to the first next sibling, stopping at the root (the while
loop of lines 56-64).  replaceCurrent (lines 94-107) runs exactly that
sibling walk from the replacement node, never descending into it.  The
caller has already swapped the replacement into the tree, so the tree
argument below is the mutated tree and the path is the replacement
position. -/

/-- Node found at a path of child indices, if the path is valid. -/
def nodeAt : DNode → List Nat → Option DNode
  | n, [] => some n
  | .text _, _ :: _ => none
  | .elem _ _ cs, i :: rest =>
    match cs.get? i with
    | none => none
    | some c => nodeAt c rest

/-- Descent test of getNext (node-iterator.ts line 53): the node has a first
child and is not marked data-editable="remove". -/
def descendOk : DNode → Bool
  | .elem _ a (_ :: _) => ¬ removeMarked a
  | _ => false

/-- Walk up from a position to the first next sibling, stopping at the root
(the shared while loop of getNext and replaceCurrent), recursing on the
path length. -/
def sibUpFuel (T : DNode) : Nat → List Nat → Option (List Nat)
  | 0, _ => none
  | fuel + 1, p =>
    match p.getLast? with
    | none => none
    | some i =>
      if (nodeAt T (p.dropLast ++ [i + 1])).isSome then
        some (p.dropLast ++ [i + 1])
      else sibUpFuel T fuel p.dropLast

/-- Next sibling of the position or of its nearest ancestor below the root,
if any. -/
def nextSiblingUp (T : DNode) (p : List Nat) : Option (List Nat) :=
  sibUpFuel T p.length p

/-- Embedding of one getNext call: the returned node position (the stored
nextNode) and the new nextNode. -/
def iterNext (T : DNode) (state : Option (List Nat)) :
    Option (List Nat) × Option (List Nat) :=
  match state with
  | none => (none, none)
  | some p =>
    match nodeAt T p with
    | none => (some p, none)
    | some n =>
      if descendOk n then (some p, some (p ++ [0]))
      else (some p, nextSiblingUp T p)

/-- Positions returned by successive getNext calls from a state, within a
step budget. -/
def iterVisits (T : DNode) : Nat → Option (List Nat) → List (List Nat)
  | 0, _ => []
  | fuel + 1, st =>
    match iterNext T st with
    | (none, _) => []
    | (some p, st2) => p :: iterVisits T fuel st2

/-- NextNode pointer recomputed by replaceCurrent(replacement): the sibling
walk from the replacement position (node-iterator.ts lines 98-106). -/
def replaceCurrentNext (T : DNode) (p : List Nat) : Option (List Nat) :=
  nextSiblingUp T p

/-- Position q is p itself or a descendant of p. -/
def pathBelow (p q : List Nat) : Prop := ∃ r, q = p ++ r

/-- Position q lies strictly after position p in document order without
being a descendant: at the first differing coordinate q turns to a later
sibling. -/
inductive PathAfter : List Nat → List Nat → Prop
  | head {i j : Nat} {p q : List Nat} : i < j → PathAfter (i :: p) (j :: q)
  | cons {a : Nat} {p q : List Nat} : PathAfter p q → PathAfter (a :: p) (a :: q)

theorem PathAfter.not_below {p q : List Nat} (h : PathAfter p q) :
    ¬ pathBelow p q := by
  induction h with
  | head hij =>
    rintro ⟨r, hr⟩
    simp only [List.cons_append, List.cons.injEq] at hr
    omega
  | cons h ih =>
    rintro ⟨r, hr⟩
    simp only [List.cons_append, List.cons.injEq] at hr
    exact ih ⟨r, hr.2⟩

theorem PathAfter.extend {p q r : List Nat} (h : PathAfter p q) :
    PathAfter p (q ++ r) := by
  induction h with
  | head hij => exact PathAfter.head hij
  | cons h ih => exact PathAfter.cons ih

theorem PathAfter.append_left {p q : List Nat} (h : PathAfter p q) :
    ∀ r, PathAfter (p ++ r) q := by
  induction h with
  | head hij => intro r; exact PathAfter.head hij
  | cons h ih => intro r; exact PathAfter.cons (ih r)

theorem PathAfter.trans {p q r : List Nat} (h1 : PathAfter p q)
    (h2 : PathAfter q r) : PathAfter p r := by
  induction h1 generalizing r with
  | head hij =>
    cases h2 with
    | head hjk => exact PathAfter.head (Nat.lt_trans hij hjk)
    | cons h2 => exact PathAfter.head hij
  | cons h1 ih =>
    cases h2 with
    | head hak => exact PathAfter.head hak
    | cons h2 => exact PathAfter.cons (ih h2)

theorem PathAfter.sibling {c : List Nat} {i j : Nat} (hij : i < j) :
    PathAfter (c ++ [i]) (c ++ [j]) := by
  induction c with
  | nil => exact PathAfter.head hij
  | cons a c ih => exact PathAfter.cons ih

theorem nextSiblingUp_nil (T : DNode) : nextSiblingUp T [] = none := rfl

theorem nextSiblingUp_concat (T : DNode) (q : List Nat) (i : Nat) :
    nextSiblingUp T (q ++ [i]) =
      if (nodeAt T (q ++ [i + 1])).isSome then some (q ++ [i + 1])
      else nextSiblingUp T q := by
  rw [nextSiblingUp, nextSiblingUp]
  have hlen : (q ++ [i]).length = q.length + 1 := by simp
  rw [hlen, sibUpFuel]
  rw [List.getLast?_concat, List.dropLast_concat]

theorem nextSiblingUp_after (T : DNode) :
    ∀ (p q : List Nat), nextSiblingUp T p = some q → PathAfter p q := by
  intro p
  induction p using List.reverseRecOn with
  | nil =>
    intro q h
    rw [nextSiblingUp_nil] at h
    exact absurd h (by simp)
  | append_singleton p i ih =>
    intro q h
    rw [nextSiblingUp_concat] at h
    split at h
    · obtain rfl : q = p ++ [i + 1] := by simpa using h.symm
      exact PathAfter.sibling (Nat.lt_succ_self i)
    · exact (ih q h).append_left [i]

theorem iterVisits_none (T : DNode) (fuel : Nat) :
    iterVisits T fuel none = [] := by
  cases fuel <;> simp [iterVisits, iterNext]

theorem iterNext_fst (T : DNode) (q : List Nat) :
    (iterNext T (some q)).1 = some q := by
  rw [iterNext]
  rcases hn : nodeAt T q with - | n <;> simp only [hn]
  split <;> rfl

theorem iterVisits_succ_some (T : DNode) (fuel : Nat) (q : List Nat) :
    iterVisits T (fuel + 1) (some q)
      = q :: iterVisits T fuel (iterNext T (some q)).2 := by
  rcases hni : iterNext T (some q) with ⟨c, st2⟩
  have hc : c = some q := by rw [← iterNext_fst T q, hni]
  subst hc
  rw [iterVisits, hni]

theorem iterVisits_after (T : DNode) (p : List Nat) :
    ∀ (fuel : Nat) (st : List Nat), PathAfter p st →
      ∀ q ∈ iterVisits T fuel (some st), PathAfter p q := by
  intro fuel
  induction fuel with
  | zero =>
    intro st _ q hq
    simp [iterVisits] at hq
  | succ fuel ih =>
    intro st hst q hq
    rw [iterVisits, iterNext] at hq
    rcases hn : nodeAt T st with - | n
    · rw [hn] at hq
      simp [iterVisits_none] at hq
      subst hq
      exact hst
    · rw [hn] at hq
      by_cases hd : descendOk n
      · simp only [if_pos hd] at hq
        rcases List.mem_cons.mp hq with hq | hq
        · subst hq; exact hst
        · exact ih (st ++ [0]) hst.extend q hq
      · simp only [if_neg hd] at hq
        rcases List.mem_cons.mp hq with hq | hq
        · subst hq; exact hst
        · rcases hs : nextSiblingUp T st with - | st2
          · rw [hs] at hq
            simp [iterVisits_none] at hq
          · rw [hs] at hq
            exact ih st2 (hst.trans (nextSiblingUp_after T st st2 hs)) q hq

/-- Claim C10: after replaceCurrent(r) the iteration never visits the
replacement node r or any of its descendants, and it resumes at the next
sibling of r when r has one, otherwise at the next sibling of the nearest
ancestor of r that is still inside the root, and otherwise the walk ends
(getNext returns undefined).  Positions are paths of child indices; the
tree is the already-mutated tree and p is the replacement position. -/
theorem C10_replaceCurrent (T : DNode) (p : List Nat) (fuel : Nat)
    (hvalid : (nodeAt T p).isSome) :
    (∀ q ∈ iterVisits T fuel (replaceCurrentNext T p), ¬ pathBelow p q) ∧
    (∀ (q : List Nat) (i : Nat), p = q ++ [i] →
      ((nodeAt T (q ++ [i + 1])).isSome →
        replaceCurrentNext T p = some (q ++ [i + 1])) ∧
      (¬ (nodeAt T (q ++ [i + 1])).isSome →
        replaceCurrentNext T p = replaceCurrentNext T q)) ∧
    (p = [] → replaceCurrentNext T p = none) ∧
    (∀ q : List Nat, replaceCurrentNext T p = some q →
      (iterVisits T (fuel + 1) (some q)).head? = some q) ∧
    (replaceCurrentNext T p = none →
      iterVisits T fuel (replaceCurrentNext T p) = []) := by
  refine ⟨?_, ?_, ?_, ?_, ?_⟩
  · intro q hq
    rcases hs : replaceCurrentNext T p with - | st
    · rw [hs] at hq
      simp [iterVisits_none] at hq
    · rw [hs] at hq
      have hafter : PathAfter p st := nextSiblingUp_after T p st hs
      exact (iterVisits_after T p fuel st hafter q hq).not_below
  · intro q i hp
    subst hp
    constructor
    · intro hsib
      rw [replaceCurrentNext, nextSiblingUp_concat, if_pos hsib]
    · intro hsib
      rw [replaceCurrentNext, replaceCurrentNext, nextSiblingUp_concat,
        if_neg hsib]
  · intro hp
    subst hp
    rfl
  · intro q hs
    rw [iterVisits_succ_some]
    simp
  · intro hs
    rw [hs]
    exact iterVisits_none T fuel

/-- Witness for C10_replaceCurrent: in a div holding a span (with two text
children) followed by a text node, replacing the span (position [0]) makes
the iteration resume at the following text node (position [1]) and visit
nothing below the span. -/
theorem C10_replaceCurrent_witness :
    (nodeAt (.elem "DIV" [] [.elem "SPAN" [] [.text ['a'], .text ['b']],
        .text ['c']]) [0]).isSome ∧
    replaceCurrentNext (.elem "DIV" [] [.elem "SPAN" [] [.text ['a'],
        .text ['b']], .text ['c']]) [0] = some [1] ∧
    (∀ q ∈ iterVisits (.elem "DIV" [] [.elem "SPAN" [] [.text ['a'],
        .text ['b']], .text ['c']]) 5
      (replaceCurrentNext (.elem "DIV" [] [.elem "SPAN" [] [.text ['a'],
        .text ['b']], .text ['c']]) [0]), ¬ pathBelow [0] q) := by
  refine ⟨by decide, ?_, ?_⟩
  · simp [replaceCurrentNext, nextSiblingUp, sibUpFuel, nodeAt]
  · exact (C10_replaceCurrent (.elem "DIV" [] [.elem "SPAN" [] [.text ['a'],
      .text ['b']], .text ['c']]) [0] 5 (by decide)).1

/-! ## Claim C9: restore with a missing anchor

Embedding of restore and setRangeBoundary (range-save-restore.ts) together
with normalizeBoundaries (util/dom, part_009).  A range boundary point is
modelled as none for the default document position that a fresh
createRange() carries (outside the host), or some (path, offset) for a
position inside the host: the path addresses the container node and the
offset is the character or child offset.  Marker lookup models
host.querySelector with an id selector: the first descendant element in
pre-order whose id attribute matches.  Removing a marker updates boundary
points the way live DOM ranges are updated: a later-sibling offset in the
same parent decrements, and a boundary inside the removed subtree moves to
the removed node's old slot. -/

/-- Boundary point: none is the document default of createRange(). -/
abbrev RPt := Option (List Nat × Nat)

/-- Range as a pair of boundary points. -/
structure RangeM where
  rStart : RPt
  rEnd : RPt
deriving DecidableEq, Repr

/-- Embedding of createRange(): a fresh range at the document default. -/
def createRange : RangeM := ⟨none, none⟩

/-- Search a sibling list (child index i onward) for the first element in
pre-order whose id attribute is the target, as an id selector query does. -/
def findIdPathL (targetId : String) : List DNode → Nat → Option (List Nat)
  | [], _ => none
  | .text _ :: ns, i => findIdPathL targetId ns (i + 1)
  | .elem _ a cs :: ns, i =>
    if getAttr a "id" = some targetId then some [i]
    else
      match findIdPathL targetId cs 0 with
      | some p => some (i :: p)
      | none => findIdPathL targetId ns (i + 1)

/-- Embedding of getMarker (range-save-restore.ts lines 168-170):
host.querySelector searches the descendants of the host. -/
def getMarker (host : DNode) (id : String) : Option (List Nat) :=
  match host with
  | .text _ => none
  | .elem _ _ cs => findIdPathL id cs 0

/-- Removal of the node at a (non-root) path; an invalid path removes
nothing. -/
def removeAtPath : DNode → List Nat → DNode
  | n, [] => n
  | .text s, _ :: _ => .text s
  | .elem t a cs, [i] => .elem t a (cs.eraseIdx i)
  | .elem t a cs, i :: rest =>
    match cs.get? i with
    | none => .elem t a cs
    | some c => .elem t a (cs.set i (removeAtPath c rest))

/-- Live-range boundary update on node removal: an offset after the removed
node in the same parent decrements; a boundary inside the removed subtree
moves to the removed node's old slot; other boundaries are untouched. -/
def adjustPt (removed : List Nat) (pt : RPt) : RPt :=
  match pt, removed.getLast? with
  | none, _ => none
  | some cp, none => some cp
  | some (c, off), some i =>
    if c = removed.dropLast then
      if off > i then some (c, off - 1) else some (c, off)
    else if removed.isPrefixOf c then some (removed.dropLast, i)
    else some (c, off)

/-- Strict lexicographic order on node paths: document order of two nodes
neither of which contains the other. -/
def pathLexLt : List Nat → List Nat → Bool
  | [], [] => false
  | [], _ :: _ => true
  | _ :: _, [] => false
  | i :: p, j :: q => if i < j then true else if j < i then false else pathLexLt p q

/-- Bitmask of compareDocumentPosition restricted to what
normalizeBoundaries reads, over container positions (none is the document,
which contains every in-host node): 0 same node, 20 contained-by and
following, 10 contains and preceding, 4 following only, 2 preceding only. -/
def comparePosN : Option (List Nat) → Option (List Nat) → Nat
  | none, none => 0
  | none, some _ => 20
  | some _, none => 10
  | some p, some q =>
    if p = q then 0
    else if p.isPrefixOf q then 20
    else if q.isPrefixOf p then 10
    else if pathLexLt p q then 4
    else 2

/-- setStartBefore(node) for a node at a path: the start becomes the slot
of that node in its parent; the document root has no parent and is left
unchanged (the DOM would throw, and no modelled flow reaches it). -/
def setStartBeforeM (r : RangeM) (np : List Nat) : RangeM :=
  match np.getLast? with
  | none => r
  | some i => ⟨some (np.dropLast, i), r.rEnd⟩

/-- setEndAfter(node) for a node at a path, in the same manner. -/
def setEndAfterM (r : RangeM) (np : List Nat) : RangeM :=
  match np.getLast? with
  | none => r
  | some i => ⟨r.rStart, some (np.dropLast, i + 1)⟩

/-- Embedding of normalizeBoundaries (part_009 lines 84-92): when the end
container strictly follows the start container (bit pattern exactly 4) the
start moves to just before the end container, and then symmetrically for a
start container strictly preceding the end container (bit pattern exactly
2). -/
def normalizeBoundaries (r : RangeM) : RangeM :=
  let r1 :=
    if comparePosN (r.rStart.map Prod.fst) (r.rEnd.map Prod.fst) = 4 then
      match r.rEnd with
      | some (c, _) => setStartBeforeM r c
      | none => r
    else r
  if comparePosN (r1.rEnd.map Prod.fst) (r1.rStart.map Prod.fst) = 2 then
    match r1.rStart with
    | some (c, _) => setEndAfterM r1 c
    | none => r1
  else r1

/-- Embedding of setRangeBoundary (range-save-restore.ts lines 75-80): on a
missing marker it only logs and returns, leaving the range untouched;
otherwise it sets the requested boundary to just before the marker and
removes the marker, the other boundary following the live-range removal
rule. -/
def setRangeBoundary (host : DNode) (range : RangeM) (markerId : String)
    (atStart : Bool) : RangeM × DNode :=
  match getMarker host markerId with
  | none => (range, host)
  | some p =>
    match p.getLast? with
    | none => (range, host)
    | some i =>
      let r2 : RangeM :=
        if atStart then ⟨some (p.dropLast, i), range.rEnd⟩
        else ⟨range.rStart, some (p.dropLast, i)⟩
      (⟨adjustPt p r2.rStart, adjustPt p r2.rEnd⟩, removeAtPath host p)

/-- Token of a saved range (RangeInfo of range-save-restore.ts). -/
structure RangeInfo where
  markerId : Option String
  startMarkerId : Option String
  endMarkerId : Option String
  collapsed : Bool
  restored : Bool
deriving DecidableEq, Repr

/-- Embedding of restore (range-save-restore.ts lines 128-166), returning
the restored range and the host after marker removal, or none where the
source returns undefined.  The collapsed branch with a present marker
collapses to the end of a preceding text sibling when there is one
(removing the marker first), and otherwise to just before the marker.  When
the marker has been removed from the host, the source logs that the
selection cannot be restored but then falls through to normalizeBoundaries
and returns the fresh, never-positioned range - it does not return
undefined. -/
def restore (host : DNode) (info : RangeInfo) : Option (RangeM × DNode) :=
  if info.restored then none
  else if info.collapsed then
    match info.markerId with
    | none => none
    | some mid =>
      match getMarker host mid with
      | some p =>
        match p.getLast? with
        | none => some (normalizeBoundaries createRange, host)
        | some i =>
          if 0 < i then
            match nodeAt host (p.dropLast ++ [i - 1]) with
            | some (.text s) =>
              let host2 := removeAtPath host p
              some (normalizeBoundaries
                ⟨some (p.dropLast ++ [i - 1], s.length),
                 some (p.dropLast ++ [i - 1], s.length)⟩, host2)
            | _ =>
              some (normalizeBoundaries
                ⟨some (p.dropLast, i), some (p.dropLast, i)⟩,
                removeAtPath host p)
          else
            some (normalizeBoundaries
              ⟨some (p.dropLast, i), some (p.dropLast, i)⟩,
              removeAtPath host p)
      | none => some (normalizeBoundaries createRange, host)
  else
    match info.startMarkerId, info.endMarkerId with
    | some sid, some eid =>
      let r1 := setRangeBoundary host createRange sid true
      let r2 := setRangeBoundary r1.2 r1.1 eid false
      some (normalizeBoundaries r2.1, r2.2)
    | _, _ => none

/-- The failing input of C9: a collapsed, unconsumed token whose marker is
not in the host. -/
def c9Info : RangeInfo :=
  ⟨some "editable-range-boundary-1", none, none, true, false⟩

/-- A host that does not contain the saved marker. -/
def c9Host : DNode := .elem "DIV" [] [.text ['a', 'b']]

/-- C9: the spec requires restore to surface a missing anchor as an error
or not-found result.  The code does not: with the marker absent from the
host, restore logs and then falls through to normalizeBoundaries, returning
a fresh default range (both boundaries at the document, outside the host)
and the untouched host - a silently approximated boundary pair instead of a
failure.  Only the already-consumed-token sub-case behaves as claimed. -/
theorem C9_restore_missing_marker :
    restore c9Host c9Info = some (⟨none, none⟩, c9Host) ∧
    restore c9Host c9Info ≠ none ∧
    (∀ host info, info.restored = true → restore host info = none) := by
  refine ⟨?_, ?_, ?_⟩
  · simp [restore, c9Info, c9Host, getMarker, findIdPathL,
      normalizeBoundaries, createRange, comparePosN]
  · simp [restore, c9Info, c9Host, getMarker, findIdPathL,
      normalizeBoundaries, createRange, comparePosN]
  · intro host info h
    simp [restore, h]
